import Mathlib

/-!
Verification development for the sourcemapr evidence-localization
("match cascade") logic.

The TypeScript source under scrutiny is the chunk-highlighting cascade in
`src/unnamed/part_005` (`highlightTextInContent` and its helpers
`getSignificantWords`, `splitIntoSentences`, `calculateSimilarityScore`,
`findBestMatchingRegions`) together with the anchor-based candidate
disambiguation in
`src/frontend/src/components/documents/DocumentViewer.tsx`.

Modelling choices (stated once, used throughout):
* JS strings are modelled as `List Nat` of code points; only ASCII is
  relevant to the constants in the source, so `toLowerCase` is modelled
  as the ASCII lowering and the regex classes `\s`, `\b`, `[^a-z0-9\s]`
  are modelled over their ASCII meaning.
* JS `Number` scoring arithmetic (which mixes integers, halves and
  quarters) is modelled exactly over `Rat`.
* JS `Array.prototype.sort` with a consistent comparator is stable
  (ES2019); it is modelled by a stable insertion sort.
* Regex matching: after the source's escaping step every chunk character
  is literal, and whitespace runs are replaced by the class
  `[\s\n\r\t]+`.  The resulting pattern alternates non-whitespace
  literals and whitespace-run tokens, so greedy matching never needs to
  backtrack; `matchLen` below implements exactly that.
-/

namespace SourceMapR

/-- JS strings as lists of code points. -/
abbrev Str := List Nat

/-- Embed a Lean string literal as a `Str`. -/
def strOf (s : String) : Str := s.data.map Char.toNat

/-- Code point of a character (for readable constants). -/
def cc (c : Char) : Nat := c.toNat

/-- JS `\s` (ASCII part): space, tab, newline, carriage return,
vertical tab, form feed. -/
def isWS (n : Nat) : Bool :=
  n = 32 || n = 9 || n = 10 || n = 13 || n = 11 || n = 12

/-- ASCII `toLowerCase` on a code point. -/
def toLowerN (n : Nat) : Nat := if 65 ≤ n ∧ n ≤ 90 then n + 32 else n

/-- JS regex word character `[A-Za-z0-9_]` (ASCII). -/
def isWordChar (n : Nat) : Bool :=
  (48 ≤ n && n ≤ 57) || (65 ≤ n && n ≤ 90) || (97 ≤ n && n ≤ 122) || n = 95

/-- Lower-case letter or digit, the class kept by `replace(/[^a-z0-9\s]/g, ' ')`
after lowering. -/
def isLowerAlnum (n : Nat) : Bool :=
  (97 ≤ n && n ≤ 122) || (48 ≤ n && n ≤ 57)

/-- Sentence-terminator characters `.  !  ?  \n` used by
`splitIntoSentences` and the region-expansion loops. -/
def isTermCh (n : Nat) : Bool := n = 46 || n = 33 || n = 63 || n = 10

/-- JS `s.slice(a, b)` for `0 ≤ a, b` (start clamped, `a > b` gives `[]`). -/
def sliceJS (s : Str) (a b : Nat) : Str := (s.take b).drop a

/-- JS `s[i] ?? ''` modelled with a non-character default `0`. -/
def getD (s : Str) (i : Nat) : Nat := s.getD i 0

/-- JS `s.trim()`: strip whitespace from both ends. -/
def trimJS (s : Str) : Str :=
  ((s.dropWhile (fun c => isWS c)).reverse.dropWhile (fun c => isWS c)).reverse

/-! ## Tokenisation shared by the scoring helpers

All the scoring helpers in the source start with
`text.toLowerCase().replace(/[^a-z0-9\s]/g, ' ').split(/\s+/)`;
`tokensOf` is that pipeline (empty fragments produced by `split` are
dropped — every use in the source filters them away by a length bound
anyway). -/

/-- One character of `toLowerCase().replace(/[^a-z0-9\s]/g, ' ')`. -/
def normChar (n : Nat) : Nat :=
  let l := toLowerN n
  if isLowerAlnum l || isWS l then l else 32

/-- `split(/\s+/)` dropping empty fragments; structural accumulator
formulation (`acc` holds the current word reversed) so that it reduces
in the kernel. -/
def splitWSGo (acc : Str) : Str → List Str
  | [] => if acc.isEmpty then [] else [acc.reverse]
  | c :: rest =>
    if isWS c then
      if acc.isEmpty then splitWSGo [] rest
      else acc.reverse :: splitWSGo [] rest
    else splitWSGo (c :: acc) rest

def splitWS (s : Str) : List Str := splitWSGo [] s

/-- `text.toLowerCase().replace(/[^a-z0-9\s]/g, ' ').split(/\s+/)`. -/
def tokensOf (s : Str) : List Str := splitWS (s.map normChar)

/-- First-occurrence deduplication; models the key order of a JS `Map`
filled by insertion and of `[...new Set(xs)]`. -/
def dedupFirst (l : List Str) : List Str :=
  l.foldl (fun acc w => if acc.contains w then acc else acc ++ [w]) []

/-! ## Stable sort

JS `Array.prototype.sort` with a consistent comparator.  `lt a b = true`
means the comparator orders `a` strictly before `b`; ties keep the
original order, which is exactly what insertion from the left gives. -/

def insertBy {α : Type} (lt : α → α → Bool) (x : α) : List α → List α
  | [] => [x]
  | y :: ys => if lt y x then y :: insertBy lt x ys else x :: y :: ys

def stableSortBy {α : Type} (lt : α → α → Bool) : List α → List α
  | [] => []
  | x :: xs => insertBy lt x (stableSortBy lt xs)

/-! ## `getSignificantWords` (src/unnamed/part_005, lines 76–100)

The source returns a `Map word → count`; every consumer uses only the
key set, membership and `size`, so the model keeps the key list in
first-insertion order. -/

/-- Stop-word list of `getSignificantWords` in part_005. -/
def sigStop : List Str :=
  ["the", "a", "an", "and", "or", "but", "in", "on", "at", "to", "for", "of", "with",
   "by", "from", "as", "is", "was", "are", "were", "been", "be", "have", "has", "had",
   "do", "does", "did", "will", "would", "could", "should", "may", "might", "must",
   "this", "that", "these", "those", "it", "its", "they", "them", "their", "we", "our",
   "you", "your", "he", "she", "his", "her", "can", "such", "which", "who", "whom",
   "what", "where", "when", "how", "why", "all", "each", "every", "both", "few", "more",
   "most", "other", "some", "any", "no", "not", "only", "same", "so", "than", "too",
   "very", "just", "also", "now", "here", "there", "then", "if", "else", "use", "used"
  ].map strOf

/-- Significant words of a text: tokens of length ≥ 2 that are not stop
words, as the key list of the source's `Map` (first-occurrence order). -/
def getSignificantWords (text : Str) : List Str :=
  dedupFirst ((tokensOf text).filter (fun w => 2 ≤ w.length && !sigStop.contains w))

/-! ## `calculateSimilarityScore` (src/unnamed/part_005, lines 121–161) -/

/-- Mutable state of the scoring loop: `matchedSet`, `matchedWords`,
`totalWeight`. -/
structure SimState where
  matchedSet : List Str
  matchedWords : Rat
  totalWeight : Rat

/-- `a.isPrefixOf b` on code-point lists. -/
def isPrefixStr : Str → Str → Bool
  | [], _ => true
  | _ :: _, [] => false
  | a :: as, b :: bs => a = b && isPrefixStr as bs

/-- JS `hay.indexOf(needle)` restricted to a suffix: position of the
first occurrence, if any (tail-recursive scan, `k` = offset already
passed). -/
def findSubGo (needle : Str) : Nat → Str → Option Nat
  | k, [] => if needle.isEmpty then Option.some k else Option.none
  | k, c :: rest =>
    if isPrefixStr needle (c :: rest) then Option.some k
    else findSubGo needle (k + 1) rest

def findSub (needle hay : Str) : Option Nat := findSubGo needle 0 hay

/-- `hay.includes(needle)` (substring containment). -/
def includesJS (hay needle : Str) : Bool := (findSub needle hay).isSome

/-- One iteration of `for (const word of regionWordsLower)`:
exact-match credit, then partial/substring credit for words of length ≥ 5. -/
def simStep (chunkWords : List Str) (st : SimState) (w : Str) : SimState :=
  let st1 :=
    if chunkWords.contains w && !st.matchedSet.contains w then
      { matchedSet := w :: st.matchedSet
        matchedWords := st.matchedWords + 1
        totalWeight := st.totalWeight + min ((w.length : Rat) / 4) 3 }
    else st
  if 5 ≤ w.length then
    chunkWords.foldl
      (fun s cw =>
        if 5 ≤ cw.length && !s.matchedSet.contains cw &&
            (includesJS w cw || includesJS cw w) then
          { matchedSet := cw :: s.matchedSet
            matchedWords := s.matchedWords + 1 / 2
            totalWeight := s.totalWeight + 1 }
        else s)
      st1
  else st1

/-- `calculateSimilarityScore(regionText, chunkWords)`:
`coverage * 100 + totalWeight` with `coverage = matchedWords / size`. -/
def calculateSimilarityScore (regionText : Str) (chunkWords : List Str) : Rat :=
  if chunkWords.length = 0 then 0
  else
    let regionWordsLower := (tokensOf regionText).filter (fun w => 2 ≤ w.length)
    let st := regionWordsLower.foldl (simStep chunkWords) ⟨[], 0, 0⟩
    st.matchedWords / (chunkWords.length : Rat) * 100 + st.totalWeight

/-! ## `splitIntoSentences` (src/unnamed/part_005, lines 103–119)

The regex `/[^.!?\n]+(?:[.!?]+|\n|$)/g` matches a maximal run of
non-terminator characters followed by a run of `.!?`, or by a single
newline, or by the end of the text.  Fragments whose trimmed text is not
longer than 10 characters are skipped. -/

structure Sentence where
  text : Str     -- `match[0].trim()`
  start : Nat    -- `match.index`
  stop : Nat     -- `match.index + match[0].length`
deriving DecidableEq

/-- One regex match starting at the head of `s` (which must not start
with a terminator): the body run plus its terminator extension. -/
def sentenceHere (s : Str) : Str :=
  let body := s.takeWhile (fun c => !isTermCh c)
  let rest := s.drop body.length
  match rest with
  | [] => body
  | c :: _ =>
    if c = 10 then body ++ [10]
    else body ++ rest.takeWhile (fun c => isTermCh c && c ≠ 10)

theorem sentenceHere_length_pos {c : Nat} (rest : Str) (h : isTermCh c = false) :
    0 < (sentenceHere (c :: rest)).length := by
  simp only [sentenceHere, List.takeWhile_cons, h, Bool.not_false, if_true]
  split
  · simp
  · split <;> simp

/-- Fuel-indexed regex scan (fuel ≥ text length makes it total; each
step consumes at least one character). -/
def splitIntoSentencesGo : Nat → Str → Nat → List Sentence
  | 0, _, _ => []
  | _ + 1, [], _ => []
  | fuel + 1, c :: rest, pos =>
    if isTermCh c then splitIntoSentencesGo fuel rest (pos + 1)
    else
      let m := sentenceHere (c :: rest)
      let sent : Sentence := ⟨trimJS m, pos, pos + m.length⟩
      let tail := splitIntoSentencesGo fuel ((c :: rest).drop m.length) (pos + m.length)
      if 10 < (trimJS m).length then sent :: tail else tail

def splitIntoSentences (text : Str) : List Sentence :=
  splitIntoSentencesGo text.length text 0

/-! ## `findBestMatchingRegions` (src/unnamed/part_005, lines 164–238) -/

/-- Which internal path of `findBestMatchingRegions` produced the
result.  The source does not label its return value; this tag is the
abstraction the specification's tier names (`fuzzy-region` vs
`default-head`) refer to. -/
inductive RegionKind where
  | sentences | window | defaultHead | noRegion
deriving DecidableEq

structure SSent where
  sent : Sentence
  score : Rat
deriving DecidableEq

/-- The `for (let i = 0; i < text.length - 30; i += step)` sliding-window
loop (`windowSize = 400`, `step = 30`), keeping the strictly best
`(score, start, end)`; fuel-indexed (fuel ≥ the iteration count makes
it total). -/
def windowScanGo (text : Str) (chunkWords : List Str) (L : Nat) :
    Nat → Nat → Rat × Nat × Nat → Rat × Nat × Nat
  | 0, _, best => best
  | fuel + 1, i, best =>
    if i < L then
      let regionEnd := min (i + 400) text.length
      let score := calculateSimilarityScore (sliceJS text i regionEnd) chunkWords
      windowScanGo text chunkWords L fuel (i + 30)
        (if best.1 < score then (score, i, regionEnd) else best)
    else best

/-- `while (bestStart > 0 && !['.','!','?','\n'].includes(text[bestStart-1] ?? ''))
bestStart--`. -/
def expandLeft (text : Str) : Nat → Nat
  | 0 => 0
  | i + 1 => if isTermCh (getD text i) then i + 1 else expandLeft text i

/-- `while (bestEnd < text.length && !['.','!','?','\n'].includes(text[bestEnd] ?? ''))
bestEnd++` (fuel-indexed). -/
def expandRightGo (text : Str) : Nat → Nat → Nat
  | 0, i => i
  | fuel + 1, i =>
    if i < text.length then
      if isTermCh (getD text i) then i else expandRightGo text fuel (i + 1)
    else i

def expandRight (text : Str) (i : Nat) : Nat :=
  expandRightGo text (text.length + 1) i

/-- The merge loop over position-sorted matches: extend the last region
when the next match starts less than 150 characters after it ends. -/
def mergeGo (cur : Nat × Nat) : List (Nat × Nat) → List (Nat × Nat)
  | [] => [cur]
  | m :: rest =>
    if m.1 - cur.2 < 150 then mergeGo (cur.1, m.2) rest
    else cur :: mergeGo m rest

def mergeRegions : List (Nat × Nat) → List (Nat × Nat)
  | [] => []
  | m :: rest => mergeGo m rest

def scoredSentencesOf (text : Str) (chunkWords : List Str) : List SSent :=
  (splitIntoSentences text).map
    (fun s => SSent.mk s (calculateSimilarityScore s.text chunkWords))

/-- `Math.max(1, chunkWords.size * 0.05)`. -/
def minScoreOf (chunkWords : List Str) : Rat :=
  max 1 ((chunkWords.length : Rat) * (1 / 20))

/-- Sort by score descending, keep the ones clearing the threshold,
take up to 5. -/
def topMatchesOf (text : Str) (chunkWords : List Str) : List SSent :=
  ((stableSortBy (fun a b => decide (b.score < a.score))
      (scoredSentencesOf text chunkWords)).filter
    (fun s => decide (minScoreOf chunkWords ≤ s.score))).take 5

def windowBestOf (text : Str) (chunkWords : List Str) : Rat × Nat × Nat :=
  windowScanGo text chunkWords (text.length - 30) (text.length - 30) 0 (0, 0, 0)

def findBestMatchingRegions (text : Str) (chunkWords : List Str) :
    List (Nat × Nat) × RegionKind :=
  if chunkWords.length = 0 then ([], .noRegion)
  else
    let topMatches := topMatchesOf text chunkWords
    if topMatches.isEmpty then
      -- sliding-window fallback over the raw text
      let best := windowBestOf text chunkWords
      if 0 < best.1 then
        let bs := expandLeft text best.2.1
        let be := expandRight text best.2.2
        ([(bs, min (be + 1) text.length)], .window)
      else if 0 < text.length then
        -- ultimate fallback: first 500 characters
        ([(0, min 500 text.length)], .defaultHead)
      else ([], .noRegion)
    else
      let sortedByPosition :=
        stableSortBy (fun a b => decide (a.sent.start < b.sent.start)) topMatches
      (mergeRegions (sortedByPosition.map (fun s => (s.sent.start, s.sent.stop))),
        .sentences)

/-! ## The regex engine used by the text tiers

The exact/prefix tiers build
`new RegExp(escaped.replace(/\s+/g, '[\s\n\r\t]+'), 'gis')`: after
escaping, every non-whitespace chunk character is a case-insensitive
literal and every whitespace run is the class `[\s\n\r\t]+`.  `canon`
computes that pattern (lower-cased literals, `none` for a whitespace
run); because a whitespace-run token is never followed by another one
nor by a whitespace literal, greedy matching without backtracking
(`matchLen`) is exact.  The word tiers build `(word)` or `\b(word)\b`
patterns; the `\b` checks are the `bounded` flag of `matchAt`. -/

/-- Pattern of a chunk: case-folded literals, `none` per whitespace
run.  Also the canonical form of a string up to case and whitespace
runs.  (`inWS` records whether the previous character already belongs
to a whitespace run, making the recursion structural.) -/
def canonGo (inWS : Bool) : Str → List (Option Nat)
  | [] => []
  | a :: as =>
    if isWS a then
      if inWS then canonGo true as else none :: canonGo true as
    else some (toLowerN a) :: canonGo false as

def canon (s : Str) : List (Option Nat) := canonGo false s

/-- The conceptual recursion of `canon`: a whitespace run contributes a
single `none`. -/
theorem canonGo_true_eq (s : Str) :
    canonGo true s = canonGo false (s.dropWhile (fun c => isWS c)) := by
  induction s with
  | nil => rfl
  | cons a as ih =>
    by_cases h : isWS a
    · simp [canonGo, List.dropWhile_cons, h, ih]
    · simp [canonGo, List.dropWhile_cons, h]

theorem canon_cons_ws {a : Nat} (as : Str) (h : isWS a = true) :
    canon (a :: as) = none :: canon (as.dropWhile (fun c => isWS c)) := by
  simp [canon, canonGo, h, canonGo_true_eq]

theorem canon_cons_nws {a : Nat} (as : Str) (h : isWS a = false) :
    canon (a :: as) = some (toLowerN a) :: canon as := by
  simp [canon, canonGo, h]

/-- Greedy match of a pattern against a prefix of `s`; returns the
number of characters consumed. -/
def matchLen : List (Option Nat) → Str → Option Nat
  | [], _ => some 0
  | some c :: ps, a :: s =>
    if toLowerN a = c then (matchLen ps s).map (· + 1) else none
  | some _ :: _, [] => none
  | none :: ps, s =>
    let k := (s.takeWhile (fun c => isWS c)).length
    if k = 0 then none else (matchLen ps (s.drop k)).map (· + k)

/-- `\b` holds against a neighbouring character (or the string edge). -/
def boundaryOK : Option Nat → Bool
  | Option.none => true
  | Option.some c => !isWordChar c

/-- Match at the current position; `bounded` adds the `\b...\b` checks
of the short-word patterns (`prev` is the character before the
position). -/
def matchAt (pat : List (Option Nat)) (bounded : Bool) (prev : Option Nat)
    (s : Str) : Option Nat :=
  match matchLen pat s with
  | Option.none => none
  | Option.some k =>
    if bounded then
      if boundaryOK prev && boundaryOK (s.drop k).head? then some k else none
    else some k

/-- `text.replace(regex, open ++ $1 ++ close)` with the `g` flag:
left-to-right scan, non-overlapping, each match wrapped in place.
Returns the rewritten string and the list of matched spans (the source
returns only the string; the spans are the abstraction the
specification's `MatchCandidate` refers to). -/
def scanGo (pat : List (Option Nat)) (bounded : Bool) (op cl : Str) :
    Nat → Option Nat → Str → Nat → Str × List (Nat × Nat)
  | 0, _, s, _ => (s, [])
  | _ + 1, _, [], _ => ([], [])
  | fuel + 1, prev, c :: rest, base =>
    match matchAt pat bounded prev (c :: rest) with
    | Option.some k =>
      if k = 0 then
        -- zero-width match: JS inserts the replacement and advances one
        -- character; unreachable for the nonempty patterns built here
        let r := scanGo pat bounded op cl fuel (some c) rest (base + 1)
        (op ++ cl ++ c :: r.1, (base, base) :: r.2)
      else
        let m := (c :: rest).take k
        let r :=
          scanGo pat bounded op cl fuel m.getLast? ((c :: rest).drop k) (base + k)
        (op ++ m ++ cl ++ r.1, (base, base + k) :: r.2)
    | Option.none =>
      let r := scanGo pat bounded op cl fuel (some c) rest (base + 1)
      (c :: r.1, r.2)

def replaceTagged (pat : List (Option Nat)) (bounded : Bool) (op cl : Str)
    (text : Str) : Str × List (Nat × Nat) :=
  scanGo pat bounded op cl text.length Option.none text 0

/-! ## The highlight cascade (src/unnamed/part_005, lines 246–366) -/

def openHL : Str := strOf "<mark class=\"chunk-highlight\">"
def openWord : Str := strOf "<mark class=\"chunk-highlight-word\">"
def openFuzzy : Str := strOf "<mark class=\"chunk-highlight-fuzzy\">"
def closeM : Str := strOf "</mark>"

/-- The component state the cascade reads: `highlightChunkText` and
`highlightChunkIdx` (`null` or `{start, end}`). -/
structure HighlightState where
  chunkText : Str
  chunkIdx : Option (Int × Int)

/-- Which strategy produced the output.  `wordAny` is the last word
fallback (FALLBACK 5), which the specification's tier list omits. -/
inductive MMethod where
  | exactPosition | exactText | prefixTier | wordOverlay
  | fuzzyRegion | defaultHead | wordAny | unmatched
deriving DecidableEq

/-- Result of one cascade run.  The source returns only `output`;
`method`, `spans` (for the span-producing tiers) and `attempted` (the
tiers whose matching code ran, in order) are the abstractions the
specification talks about. -/
structure RunResult where
  output : Str
  method : MMethod
  spans : List (Nat × Nat)
  attempted : List MMethod

/-- BEST: position-index tier. -/
def positionTier (st : HighlightState) (text : Str) (off : Int) :
    Option (Str × List (Nat × Nat)) :=
  match st.chunkIdx with
  | Option.none => none
  | Option.some (s, e) =>
    let relStart : Int := s - off
    let relEnd : Int := e - off
    if 0 ≤ relStart ∧ relStart < (text.length : Int) ∧
        0 < relEnd ∧ relEnd ≤ (text.length : Int) then
      some (text.take relStart.toNat ++ openHL ++
              sliceJS text relStart.toNat relEnd.toNat ++ closeM ++
              text.drop relEnd.toNat,
            [(relStart.toNat, relEnd.toNat)])
    else none

/-- FALLBACK 1: exact match with flexible whitespace, case-insensitive,
global.  (The escaping step makes the pattern always valid, so the
source's `try/catch` never fires.) -/
def exactTier (chunk text : Str) : Option (Str × List (Nat × Nat)) :=
  let r := replaceTagged (canon chunk) false openHL closeM text
  if r.1 ≠ text then some r else none

/-- FALLBACK 2: same on the first 100 characters of a long chunk. -/
def prefixTierRun (chunk text : Str) : Option (Str × List (Nat × Nat)) :=
  if 100 < chunk.length then
    let r := replaceTagged (canon (chunk.take 100)) false openHL closeM text
    if r.1 ≠ text then some r else none
  else none

/-- `chunkWords` of FALLBACK 3/5: tokens of length ≥ 3. -/
def chunkWords3 (chunk : Str) : List Str :=
  (tokensOf chunk).filter (fun w => 3 ≤ w.length)

/-- Stop-word list of FALLBACK 3. -/
def f3Stop : List Str :=
  ["the", "and", "for", "are", "but", "not", "you", "all", "can", "has", "her",
   "was", "one", "our", "out", "with", "this", "that", "from", "have", "been",
   "will", "would", "could", "should", "into", "more", "some", "such", "than",
   "them", "then", "these", "they", "were", "what", "when", "where", "which",
   "while", "your"].map strOf

def meaningfulWords (chunk : Str) : List Str :=
  (chunkWords3 chunk).filter (fun w => !f3Stop.contains w && 3 ≤ w.length)

/-- FALLBACK 3: aggressive word-by-word highlighting; up to 25 deduped
meaningful words, longest first; words of length ≥ 5 match as plain
substrings, shorter ones with `\b` boundaries. -/
def wordTier (chunk text : Str) : Option Str :=
  let mw := meaningfulWords chunk
  if mw.isEmpty then none
  else
    let sortedWords :=
      (stableSortBy (fun a b => decide (b.length < a.length)) (dedupFirst mw)).take 25
    let res := sortedWords.foldl
      (fun (acc : Str × Bool) w =>
        let r := replaceTagged (canon w) (w.length < 5) openWord closeM acc.1
        if r.1 ≠ acc.1 then (r.1, true) else acc)
      (text, false)
    if res.2 then some res.1 else none

/-- The render loop of FALLBACK 4
(`result += text.slice(lastEnd, region.start)` …). -/
def renderRegions (text : Str) : Nat → List (Nat × Nat) → Str
  | lastEnd, [] => text.drop lastEnd
  | lastEnd, (s, e) :: rest =>
    sliceJS text lastEnd s ++ openFuzzy ++ sliceJS text s e ++ closeM ++
      renderRegions text e rest

/-- FALLBACK 4: best matching sentences/regions. -/
def fuzzyTier (chunk text : Str) :
    Option (Str × List (Nat × Nat) × RegionKind) :=
  let r := findBestMatchingRegions text (getSignificantWords chunk)
  if r.1.isEmpty then none else some (renderRegions text 0 r.1, r.1, r.2)

/-- FALLBACK 5: highlight any word of length ≥ 3 (stop words included),
first 30, plain substring match. -/
def wordAnyTier (chunk text : Str) : Option Str :=
  let ws := chunkWords3 chunk
  if ws.isEmpty then none
  else
    let res := (ws.take 30).foldl
      (fun acc w => (replaceTagged (canon w) false openWord closeM acc).1) text
    if res ≠ text then some res else none

/-- `highlightTextInContent(text, pageStartOffset)` together with the
method/span/attempted abstractions. -/
def highlightRun (st : HighlightState) (text : Str) (off : Int) : RunResult :=
  if st.chunkText.isEmpty then ⟨text, .unmatched, [], []⟩
  else
    let a0 : List MMethod := if st.chunkIdx.isSome then [.exactPosition] else []
    match positionTier st text off with
    | Option.some (o, sp) => ⟨o, .exactPosition, sp, a0⟩
    | Option.none =>
      let a1 := a0 ++ [.exactText]
      match exactTier st.chunkText text with
      | Option.some (o, sp) => ⟨o, .exactText, sp, a1⟩
      | Option.none =>
        let a2 := a1 ++ if 100 < st.chunkText.length then [.prefixTier] else []
        match prefixTierRun st.chunkText text with
        | Option.some (o, sp) => ⟨o, .prefixTier, sp, a2⟩
        | Option.none =>
          let a3 := a2 ++
            if (meaningfulWords st.chunkText).isEmpty then [] else [.wordOverlay]
          match wordTier st.chunkText text with
          | Option.some o => ⟨o, .wordOverlay, [], a3⟩
          | Option.none =>
            let a4 := a3 ++ [.fuzzyRegion]
            match fuzzyTier st.chunkText text with
            | Option.some (o, regions, kind) =>
              ⟨o, (match kind with
                   | .defaultHead => .defaultHead
                   | _ => .fuzzyRegion), regions, a4⟩
            | Option.none =>
              let a5 := a4 ++
                if (chunkWords3 st.chunkText).isEmpty then [] else [.wordAny]
              match wordAnyTier st.chunkText text with
              | Option.some o => ⟨o, .wordAny, [], a5⟩
              | Option.none => ⟨text, .unmatched, [], a5⟩

/-- The string the source actually returns. -/
def highlightTextInContent (st : HighlightState) (text : Str) (off : Int) : Str :=
  (highlightRun st text off).output

/-- Position of a tier in the cascade's order. -/
def methodRank : MMethod → Nat
  | .exactPosition => 0
  | .exactText => 1
  | .prefixTier => 2
  | .wordOverlay => 3
  | .fuzzyRegion => 4
  | .defaultHead => 5
  | .wordAny => 6
  | .unmatched => 7

/-- Tier `k` "produces a non-empty result" on its own, independently of
the cascade (the cascade's emptiness precondition on the chunk text is
part of every tier). -/
def tierSucceeds (st : HighlightState) (text : Str) (off : Int) : Nat → Bool
  | 0 => !st.chunkText.isEmpty && (positionTier st text off).isSome
  | 1 => !st.chunkText.isEmpty && (exactTier st.chunkText text).isSome
  | 2 => !st.chunkText.isEmpty && (prefixTierRun st.chunkText text).isSome
  | 3 => !st.chunkText.isEmpty && (wordTier st.chunkText text).isSome
  | 4 => !st.chunkText.isEmpty &&
      (let k := (findBestMatchingRegions text (getSignificantWords st.chunkText)).2
       decide (k = .sentences) || decide (k = .window))
  | 5 => !st.chunkText.isEmpty &&
      decide ((findBestMatchingRegions text (getSignificantWords st.chunkText)).2
        = .defaultHead)
  | _ + 6 => false

/-! ## Generic facts about the stable sort and the merge loop -/

theorem length_insertBy {α : Type} (lt : α → α → Bool) (x : α) (l : List α) :
    (insertBy lt x l).length = l.length + 1 := by
  induction l with
  | nil => rfl
  | cons y ys ih =>
    simp only [insertBy]
    split <;> simp [ih]

theorem length_stableSortBy {α : Type} (lt : α → α → Bool) (l : List α) :
    (stableSortBy lt l).length = l.length := by
  induction l with
  | nil => rfl
  | cons x xs ih => simp [stableSortBy, length_insertBy, ih]

theorem mem_insertBy {α : Type} (lt : α → α → Bool) (x a : α) (l : List α) :
    a ∈ insertBy lt x l ↔ a = x ∨ a ∈ l := by
  induction l with
  | nil => simp [insertBy]
  | cons y ys ih =>
    simp only [insertBy]
    split <;> simp [ih] <;> tauto

theorem mem_stableSortBy {α : Type} (lt : α → α → Bool) (a : α) (l : List α) :
    a ∈ stableSortBy lt l ↔ a ∈ l := by
  induction l with
  | nil => simp [stableSortBy]
  | cons x xs ih =>
    simp only [stableSortBy, mem_insertBy, List.mem_cons, ih]

theorem mergeGo_ne_nil (cur : Nat × Nat) (l : List (Nat × Nat)) :
    mergeGo cur l ≠ [] := by
  induction l generalizing cur with
  | nil => simp [mergeGo]
  | cons m rest ih =>
    simp only [mergeGo]
    split
    · exact ih _
    · simp

theorem mergeRegions_ne_nil (l : List (Nat × Nat)) (h : l ≠ []) :
    mergeRegions l ≠ [] := by
  match l with
  | [] => exact absurd rfl h
  | m :: rest => exact mergeGo_ne_nil m rest

/-- In `findBestMatchingRegions`, the `noRegion` tag and an empty region
list coincide. -/
theorem fbmr_noRegion_iff (text : Str) (cw : List Str) :
    (findBestMatchingRegions text cw).2 = .noRegion ↔
      (findBestMatchingRegions text cw).1 = [] := by
  simp only [findBestMatchingRegions]
  split
  · simp
  · split
    · split
      · simp
      · split
        · simp
        · simp
    · rename_i htop
      constructor
      · intro h; exact absurd h (by simp)
      · intro h
        exfalso
        refine mergeRegions_ne_nil _ ?_ h
        intro hmap
        apply htop
        have hlen := congrArg List.length hmap
        simp only [List.length_map, length_stableSortBy, List.length_nil] at hlen
        simpa [List.isEmpty_iff, List.length_eq_zero] using hlen

/-! ## Pattern-matcher lemmas -/

theorem take_takeWhile_length {α : Type} (p : α → Bool) (l : List α) :
    l.take (l.takeWhile p).length = l.takeWhile p := by
  induction l with
  | nil => rfl
  | cons a as ih =>
    simp only [List.takeWhile_cons]
    split
    · simp [List.take_succ_cons, ih]
    · rfl

theorem drop_takeWhile_length {α : Type} (p : α → Bool) (l : List α) :
    l.drop (l.takeWhile p).length = l.dropWhile p := by
  induction l with
  | nil => rfl
  | cons a as ih =>
    simp only [List.takeWhile_cons, List.dropWhile_cons]
    split
    · simpa using ih
    · rfl

theorem mem_takeWhile_sat {α : Type} (p : α → Bool) (l : List α) :
    ∀ x ∈ l.takeWhile p, p x = true := by
  induction l with
  | nil => simp
  | cons a as ih =>
    simp only [List.takeWhile_cons]
    split
    · intro x hx
      rcases List.mem_cons.mp hx with h | h
      · subst h; assumption
      · exact ih x h
    · simp

theorem dropWhile_head_false {α : Type} (p : α → Bool) (l : List α)
    {t : α} {ts : List α} (h : l.dropWhile p = t :: ts) : p t = false := by
  induction l with
  | nil => simp at h
  | cons a as ih =>
    simp only [List.dropWhile_cons] at h
    split at h
    · exact ih h
    · cases h
      rename_i hpa
      simpa using hpa

theorem dropWhile_all_append {α : Type} (p : α → Bool) (R T : List α)
    (hR : ∀ x ∈ R, p x = true)
    (hT : T = [] ∨ ∃ t ts, T = t :: ts ∧ p t = false) :
    (R ++ T).dropWhile p = T := by
  induction R with
  | nil =>
    simp only [List.nil_append]
    rcases hT with h | ⟨t, ts, h, hft⟩
    · simp [h]
    · simp [h, List.dropWhile_cons, hft]
  | cons a R ih =>
    have ha := hR a (by simp)
    simp only [List.cons_append, List.dropWhile_cons, ha, if_true]
    exact ih (fun x hx => hR x (by simp [hx]))

theorem isWS_toLowerN (n : Nat) : isWS (toLowerN n) = isWS n := by
  simp only [toLowerN]
  split
  · rw [Bool.eq_iff_iff]
    simp only [isWS, Bool.or_eq_true, decide_eq_true_eq]
    omega
  · rfl

theorem canon_eq_nil_iff (s : Str) : canon s = [] ↔ s = [] := by
  cases s with
  | nil => simp [canon, canonGo]
  | cons a as =>
    constructor
    · intro h
      by_cases hws : isWS a
      · rw [canon_cons_ws as hws] at h; cases h
      · rw [canon_cons_nws as (by simpa using hws)] at h; cases h
    · intro h; cases h

theorem canon_entry_not_ws (s : Str) :
    ∀ c, some c ∈ canon s → isWS c = false := by
  suffices h : ∀ b, ∀ c, some c ∈ canonGo b s → isWS c = false by
    exact h false
  induction s with
  | nil => intro b c hc; simp [canonGo] at hc
  | cons a as ih =>
    intro b c hc
    by_cases hws : isWS a
    · simp only [canonGo, hws, if_true] at hc
      split at hc
      · exact ih true c hc
      · rcases List.mem_cons.mp hc with h | h
        · cases h
        · exact ih true c h
    · simp only [canonGo, hws, Bool.false_eq_true, if_false] at hc
      rcases List.mem_cons.mp hc with h | h
      · cases h
        rw [isWS_toLowerN]
        simpa using hws
      · exact ih false c h

theorem matchLen_le (pat : List (Option Nat)) (s : Str) (k : Nat)
    (h : matchLen pat s = some k) : k ≤ s.length := by
  induction pat generalizing s k with
  | nil =>
    simp only [matchLen, Option.some.injEq] at h
    omega
  | cons t ps ih =>
    cases t with
    | some c =>
      cases s with
      | nil => simp [matchLen] at h
      | cons a s' =>
        simp only [matchLen] at h
        split at h
        · cases hk : matchLen ps s' with
          | none => rw [hk] at h; cases h
          | some k' =>
            rw [hk] at h
            simp at h
            have := ih s' k' hk
            simp only [List.length_cons]
            omega
        · cases h
    | none =>
      simp only [matchLen] at h
      split at h
      · cases h
      · cases hk : matchLen ps (s.drop (s.takeWhile (fun c => isWS c)).length) with
        | none => rw [hk] at h; cases h
        | some k'' =>
          rw [hk] at h
          simp at h
          have h1 := ih _ k'' hk
          have h2 : (s.takeWhile (fun c => isWS c)).length ≤ s.length :=
            (List.Sublist.length_le (List.takeWhile_sublist _))
          simp only [List.length_drop] at h1
          omega

theorem matchLen_pos (pat : List (Option Nat)) (s : Str) (k : Nat)
    (hp : pat ≠ []) (h : matchLen pat s = some k) : 1 ≤ k := by
  cases pat with
  | nil => exact absurd rfl hp
  | cons t ps =>
    cases t with
    | some c =>
      cases s with
      | nil => simp [matchLen] at h
      | cons a s' =>
        simp only [matchLen] at h
        split at h
        · cases hk : matchLen ps s' with
          | none => rw [hk] at h; cases h
          | some k' =>
            rw [hk] at h
            simp at h
            omega
        · cases h
    | none =>
      simp only [matchLen] at h
      split at h
      · cases h
      · rename_i hk0
        cases hk : matchLen ps (s.drop (s.takeWhile (fun c => isWS c)).length) with
        | none => rw [hk] at h; cases h
        | some k'' =>
          rw [hk] at h
          simp at h
          omega

theorem matchLen_nil_of_ne (pat : List (Option Nat)) (hp : pat ≠ []) :
    matchLen pat [] = none := by
  cases pat with
  | nil => exact absurd rfl hp
  | cons t ps =>
    cases t with
    | some c => rfl
    | none => rfl

theorem canon_wsrun_append (R T : Str) (hne : R ≠ [])
    (hR : ∀ x ∈ R, isWS x = true)
    (hT : T = [] ∨ ∃ t ts, T = t :: ts ∧ isWS t = false) :
    canon (R ++ T) = none :: canon T := by
  cases R with
  | nil => exact absurd rfl hne
  | cons r R' =>
    have hr := hR r (by simp)
    rw [List.cons_append, canon_cons_ws _ hr]
    congr 1
    rw [dropWhile_all_append _ R' T (fun x hx => hR x (by simp [hx])) hT]

/-- Any region a pattern matches has the pattern as its canonical form:
a match equals the chunk up to letter case and whitespace runs. -/
theorem matchLen_canon (pat : List (Option Nat)) (s : Str) (k : Nat)
    (hg : ∀ c, some c ∈ pat → isWS c = false)
    (h : matchLen pat s = some k) : canon (s.take k) = pat := by
  induction pat generalizing s k with
  | nil =>
    simp only [matchLen, Option.some.injEq] at h
    subst h
    rfl
  | cons t ps ih =>
    cases t with
    | some c =>
      cases s with
      | nil => simp [matchLen] at h
      | cons a s' =>
        simp only [matchLen] at h
        split at h
        · rename_i hac
          cases hk : matchLen ps s' with
          | none => rw [hk] at h; cases h
          | some k' =>
            rw [hk] at h
            simp at h
            subst h
            have hcws : isWS c = false := hg c (by simp)
            have haws : isWS a = false := by
              rw [← isWS_toLowerN, hac]; exact hcws
            rw [List.take_succ_cons, canon_cons_nws _ haws, hac]
            congr 1
            exact ih s' k' (fun x hx => hg x (by simp [hx])) hk
        · cases h
    | none =>
      simp only [matchLen] at h
      split at h
      · cases h
      · rename_i hk0
        cases hk : matchLen ps (s.drop (s.takeWhile (fun c => isWS c)).length) with
        | none => rw [hk] at h; cases h
        | some k'' =>
          rw [hk] at h
          simp at h
          subst h
          set k0 := (s.takeWhile (fun c => isWS c)).length with hk0def
          have htake : s.take k0 = s.takeWhile (fun c => isWS c) :=
            take_takeWhile_length _ s
          have hdrop : s.drop k0 = s.dropWhile (fun c => isWS c) :=
            drop_takeWhile_length _ s
          have hsplit : s.take (k'' + k0) = s.take k0 ++ (s.drop k0).take k'' := by
            rw [Nat.add_comm k'' k0, List.take_add]
          rw [hsplit]
          have hR : ∀ x ∈ s.take k0, isWS x = true := by
            rw [htake]; exact mem_takeWhile_sat _ s
          have hRne : s.take k0 ≠ [] := by
            intro hc
            apply hk0
            have := congrArg List.length hc
            simp only [List.length_take, List.length_nil] at this
            have hle : k0 ≤ s.length := by
              simpa [hk0def] using
                List.Sublist.length_le (List.takeWhile_sublist
                  (l := s) (fun c => isWS c))
            omega
          have hhead : (s.drop k0).take k'' = [] ∨
              ∃ t ts, (s.drop k0).take k'' = t :: ts ∧ isWS t = false := by
            cases hc : (s.drop k0).take k'' with
            | nil => exact Or.inl rfl
            | cons t ts =>
              refine Or.inr ⟨t, ts, rfl, ?_⟩
              have : (s.drop k0) = t :: (ts ++ (s.drop k0).drop k'') := by
                conv_lhs => rw [← List.take_append_drop k'' (s.drop k0)]
                rw [hc]
                simp
              rw [hdrop] at this
              exact dropWhile_head_false _ s this
          rw [canon_wsrun_append _ _ hRne hR hhead]
          congr 1
          exact ih _ k'' (fun x hx => hg x (by simp [hx])) hk

/-- Existence: if a region with the chunk's canonical form starts at
some position, the pattern matches there (greedily, possibly consuming
a longer whitespace tail). -/
theorem matchLen_of_canon_append (pat : List (Option Nat)) :
    ∀ (m rest : Str), canon m = pat →
      ∃ k, matchLen pat (m ++ rest) = some k := by
  induction pat with
  | nil =>
    intro m rest hm
    exact ⟨0, by simp [matchLen]⟩
  | cons t ps ih =>
    intro m rest hm
    cases m with
    | nil => cases hm
    | cons a m' =>
      by_cases haws : isWS a
      · rw [canon_cons_ws _ haws] at hm
        cases t with
        | some c => cases hm
        | none =>
          have hm' : canon (m'.dropWhile (fun c => isWS c)) = ps := by
            injection hm
          have hk0pos :
              0 < (((a :: m') ++ rest).takeWhile (fun c => isWS c)).length := by
            simp [List.takeWhile_cons, haws]
          cases hm2 : m'.dropWhile (fun c => isWS c) with
          | nil =>
            -- all of m is whitespace; the pattern must end after the run
            have hps : ps = [] := by rw [hm2] at hm'; simpa using hm'.symm
            subst hps
            refine ⟨(((a :: m') ++ rest).takeWhile (fun c => isWS c)).length, ?_⟩
            simp only [matchLen]
            rw [if_neg (by omega)]
            simp [matchLen]
          | cons t2 ts2 =>
            have ht2 : isWS t2 = false := dropWhile_head_false _ m' hm2
            obtain ⟨k', hk'⟩ := ih (t2 :: ts2) rest (by rw [← hm2]; exact hm')
            -- (m ++ rest) = wsrun ++ ((t2 :: ts2) ++ rest): dropping the
            -- maximal whitespace run lands exactly at t2
            have harr : (a :: m') ++ rest =
                (a :: m'.takeWhile (fun c => isWS c)) ++ ((t2 :: ts2) ++ rest) := by
              rw [← hm2]
              simp [← List.append_assoc, List.takeWhile_append_dropWhile]
            have hdw : ((a :: m') ++ rest).dropWhile (fun c => isWS c) =
                (t2 :: ts2) ++ rest := by
              rw [harr]
              apply dropWhile_all_append
              · intro x hx
                rcases List.mem_cons.mp hx with h | h
                · subst h; simpa using haws
                · exact mem_takeWhile_sat _ m' x h
              · exact Or.inr ⟨t2, ts2 ++ rest, by simp, ht2⟩
            refine ⟨k' + (((a :: m') ++ rest).takeWhile (fun c => isWS c)).length, ?_⟩
            simp only [matchLen]
            rw [if_neg (by omega)]
            rw [drop_takeWhile_length, hdw, hk']
            simp
      · rw [canon_cons_nws _ (by simpa using haws)] at hm
        cases t with
        | none => cases hm
        | some c =>
          have hc : toLowerN a = c := by
            have h2 := congrArg List.head? hm
            simpa using h2
          have hm' : canon m' = ps := by
            have h2 := congrArg List.tail hm
            simpa using h2
          obtain ⟨k', hk'⟩ := ih m' rest hm'
          refine ⟨k' + 1, ?_⟩
          simp [matchLen, hc, hk']

/-! ## Scan lemmas (the `g`-flag replace loop) -/

theorem matchAt_eq_some (pat : List (Option Nat)) (b : Bool) (prev : Option Nat)
    (s : Str) (k : Nat) :
    matchAt pat b prev s = some k ↔
      matchLen pat s = some k ∧
        (b = true → (boundaryOK prev && boundaryOK (s.drop k).head?) = true) := by
  simp only [matchAt]
  split
  · rename_i hm
    simp [hm]
  · rename_i kk hm
    rw [hm]
    constructor
    · cases b with
      | false =>
        intro h
        have hkk : kk = k := by simpa using h
        subst hkk
        exact ⟨rfl, by simp⟩
      | true =>
        intro h
        rw [if_pos rfl] at h
        split at h
        · rename_i hB
          have hkk : kk = k := by simpa using h
          subst hkk
          exact ⟨rfl, fun _ => hB⟩
        · cases h
    · rintro ⟨h, hb2⟩
      have hkk : kk = k := Option.some.inj h
      subst hkk
      cases b with
      | false => simp
      | true => rw [if_pos rfl, if_pos (hb2 rfl)]

theorem matchAt_false (pat : List (Option Nat)) (prev : Option Nat) (s : Str) :
    matchAt pat false prev s = matchLen pat s := by
  cases hm : matchLen pat s with
  | none => simp [matchAt, hm]
  | some k => rw [(matchAt_eq_some pat false prev s k).mpr ⟨hm, by simp⟩]

theorem matchAt_le {pat : List (Option Nat)} {b : Bool} {prev : Option Nat}
    {s : Str} {k : Nat} (h : matchAt pat b prev s = some k) : k ≤ s.length :=
  matchLen_le pat s k ((matchAt_eq_some pat b prev s k).mp h).1

theorem matchAt_pos {pat : List (Option Nat)} {b : Bool} {prev : Option Nat}
    {s : Str} {k : Nat} (hp : pat ≠ []) (h : matchAt pat b prev s = some k) :
    1 ≤ k :=
  matchLen_pos pat s k hp ((matchAt_eq_some pat b prev s k).mp h).1

theorem scanGo_output_length (pat : List (Option Nat)) (b : Bool) (op cl : Str) :
    ∀ (fuel : Nat) (prev : Option Nat) (s : Str) (base : Nat),
    (scanGo pat b op cl fuel prev s base).1.length =
      s.length +
        (scanGo pat b op cl fuel prev s base).2.length * (op.length + cl.length) := by
  intro fuel
  induction fuel with
  | zero => intro prev s base; simp [scanGo]
  | succ fuel ih =>
    intro prev s base
    cases s with
    | nil => simp [scanGo]
    | cons c rest =>
      simp only [scanGo]
      split
      · rename_i k hm
        have hk := matchAt_le hm
        simp only [List.length_cons] at hk
        split
        · simp only [List.length_append, List.length_cons, List.length_nil,
            ih, List.length_take, List.length_drop]
          all_goals ring_nf
        · simp only [List.length_append, List.length_cons, ih,
            List.length_take, List.length_drop]
          have hmin : min k (rest.length + 1) = k := by omega
          rw [hmin]
          ring_nf
          omega
      · rename_i hm
        simp only [List.length_cons, ih]
        ring

theorem scanGo_spans_nil_output (pat : List (Option Nat)) (b : Bool) (op cl : Str) :
    ∀ (fuel : Nat) (prev : Option Nat) (s : Str) (base : Nat),
    (scanGo pat b op cl fuel prev s base).2 = [] →
    (scanGo pat b op cl fuel prev s base).1 = s := by
  intro fuel
  induction fuel with
  | zero => intro prev s base _; rfl
  | succ fuel ih =>
    intro prev s base h
    cases s with
    | nil => rfl
    | cons c rest =>
      simp only [scanGo] at h ⊢
      split at h
      · rename_i k hm
        split at h <;> cases h
      · rename_i hm
        exact congrArg (List.cons c) (ih (some c) rest (base + 1) h)

theorem scanGo_output_ne_iff (pat : List (Option Nat)) (b : Bool) (op cl : Str)
    (hop : op ≠ []) (fuel : Nat) (prev : Option Nat) (s : Str) (base : Nat) :
    (scanGo pat b op cl fuel prev s base).1 ≠ s ↔
      (scanGo pat b op cl fuel prev s base).2 ≠ [] := by
  constructor
  · intro h hsp
    exact h (scanGo_spans_nil_output pat b op cl fuel prev s base hsp)
  · intro hsp heq
    have hl := scanGo_output_length pat b op cl fuel prev s base
    rw [heq] at hl
    have hspl : 0 < (scanGo pat b op cl fuel prev s base).2.length :=
      List.length_pos.mpr hsp
    have hopl : 0 < op.length := List.length_pos.mpr hop
    nlinarith [hl]

/-- Every span a scan records is in range and is a real match: the
pattern matches at its start and the span is exactly the match. -/
theorem scanGo_spans_facts (pat : List (Option Nat)) (op cl : Str)
    (hp : pat ≠ []) :
    ∀ (fuel : Nat) (prev : Option Nat) (s : Str) (base : Nat),
    ∀ pe ∈ (scanGo pat false op cl fuel prev s base).2,
      base ≤ pe.1 ∧ pe.2 ≤ base + s.length ∧
        matchLen pat (s.drop (pe.1 - base)) = some (pe.2 - pe.1) := by
  intro fuel
  induction fuel with
  | zero => intro prev s base pe hpe; simp [scanGo] at hpe
  | succ fuel ih =>
    intro prev s base pe hpe
    cases s with
    | nil => simp [scanGo] at hpe
    | cons c rest =>
      simp only [scanGo] at hpe
      split at hpe
      · rename_i k hm
        have hk1 := matchAt_pos hp hm
        have hkle := matchAt_le hm
        rw [if_neg (by omega)] at hpe
        simp only [List.mem_cons] at hpe
        rcases hpe with hpe | hpe
        · subst hpe
          refine ⟨Nat.le_refl _, by simpa using hkle, ?_⟩
          simp only [Nat.sub_self, List.drop_zero, Nat.add_sub_cancel_left]
          rw [← matchAt_false pat prev (c :: rest)]
          exact hm
        · obtain ⟨h1, h2, h3⟩ := ih _ _ _ pe hpe
          refine ⟨by omega, ?_, ?_⟩
          · simp only [List.length_drop, List.length_cons] at h2 hkle ⊢
            omega
          · rw [List.drop_drop] at h3
            rw [show k + (pe.1 - (base + k)) = pe.1 - base by omega] at h3
            exact h3
      · rename_i hm
        obtain ⟨h1, h2, h3⟩ := ih _ _ _ pe hpe
        refine ⟨by omega, ?_, ?_⟩
        · simp only [List.length_cons]
          omega
        · rw [show pe.1 - base = (pe.1 - (base + 1)) + 1 by omega]
          simpa using h3

/-- Completeness: if the pattern matches anywhere in `s`, the scan
records at least one span (given enough fuel). -/
theorem scanGo_complete (pat : List (Option Nat)) (op cl : Str)
    (hp : pat ≠ []) :
    ∀ (fuel : Nat) (prev : Option Nat) (s : Str) (base : Nat),
    s.length ≤ fuel →
    (∃ j, (matchLen pat (s.drop j)).isSome) →
    (scanGo pat false op cl fuel prev s base).2 ≠ [] := by
  intro fuel
  induction fuel with
  | zero =>
    intro prev s base hf hj
    obtain ⟨j, hj⟩ := hj
    have hs : s = [] := by
      cases s with
      | nil => rfl
      | cons a l => simp at hf
    subst hs
    rw [List.drop_nil, matchLen_nil_of_ne pat hp] at hj
    cases hj
  | succ fuel ih =>
    intro prev s base hf hj
    obtain ⟨j, hj⟩ := hj
    cases s with
    | nil =>
      rw [List.drop_nil, matchLen_nil_of_ne pat hp] at hj
      cases hj
    | cons c rest =>
      simp only [scanGo]
      split
      · rename_i k hm
        have hk1 := matchAt_pos hp hm
        rw [if_neg (by omega)]
        simp
      · rename_i hm
        simp only
        cases j with
        | zero =>
          rw [List.drop_zero] at hj
          rw [matchAt_false] at hm
          rw [hm] at hj
          cases hj
        | succ jj =>
          refine ih (some c) rest (base + 1) (by simpa using hf) ⟨jj, ?_⟩
          simpa using hj

/-- Leftmost: before the first recorded span's start, the pattern
matches nowhere. -/
theorem scanGo_leftmost (pat : List (Option Nat)) (op cl : Str) :
    ∀ (fuel : Nat) (prev : Option Nat) (s : Str) (base : Nat)
      (p e : Nat) (rest' : List (Nat × Nat)),
    (scanGo pat false op cl fuel prev s base).2 = (p, e) :: rest' →
    ∀ q, base ≤ q → q < p → matchLen pat (s.drop (q - base)) = none := by
  intro fuel
  induction fuel with
  | zero => intro prev s base p e rest' h; cases h
  | succ fuel ih =>
    intro prev s base p e rest' h q hq1 hq2
    cases s with
    | nil => cases h
    | cons c rest =>
      simp only [scanGo] at h
      split at h
      · rename_i k hm
        split at h
        all_goals
          have hp0 : p = base := by
            have h2 := congrArg List.head? h
            simp at h2
            omega
        all_goals omega
      · rename_i hm
        rcases Nat.eq_or_lt_of_le hq1 with hq | hq
        · subst hq
          simp only [Nat.sub_self, List.drop_zero]
          rw [← matchAt_false pat prev (c :: rest)]
          exact hm
        · have h3 := ih (some c) rest (base + 1) p e rest' h q hq hq2
          rw [show q - base = (q - (base + 1)) + 1 by omega]
          simpa using h3

/-! ## Span chains (sorted, disjoint, non-degenerate span lists) -/

def SpanChain : Nat → List (Nat × Nat) → Prop
  | _, [] => True
  | lo, (p, e) :: rest => lo ≤ p ∧ p < e ∧ SpanChain e rest

theorem SpanChain_mono {lo' lo : Nat} {l : List (Nat × Nat)}
    (h : lo' ≤ lo) (hc : SpanChain lo l) : SpanChain lo' l := by
  cases l with
  | nil => trivial
  | cons pe rest =>
    obtain ⟨pp, ee⟩ := pe
    obtain ⟨h1, h2, h3⟩ := hc
    exact ⟨Nat.le_trans h h1, h2, h3⟩

theorem spanChain_mem {lo : Nat} {l : List (Nat × Nat)}
    (hc : SpanChain lo l) : ∀ x ∈ l, lo ≤ x.1 ∧ x.1 < x.2 := by
  induction l generalizing lo with
  | nil => simp
  | cons pe rest ih =>
    obtain ⟨pp, ee⟩ := pe
    obtain ⟨h1, h2, h3⟩ := hc
    intro x hx
    rcases List.mem_cons.mp hx with h | h
    · subst h; exact ⟨h1, h2⟩
    · have := ih (SpanChain_mono (Nat.le_refl ee) h3) x h
      exact ⟨by omega, this.2⟩

theorem scanGo_spanChain (pat : List (Option Nat)) (op cl : Str)
    (hp : pat ≠ []) :
    ∀ (fuel : Nat) (prev : Option Nat) (s : Str) (base : Nat),
    SpanChain base (scanGo pat false op cl fuel prev s base).2 := by
  intro fuel
  induction fuel with
  | zero => intro prev s base; trivial
  | succ fuel ih =>
    intro prev s base
    cases s with
    | nil => trivial
    | cons c rest =>
      simp only [scanGo]
      split
      · rename_i k hm
        have hk1 := matchAt_pos hp hm
        rw [if_neg (by omega)]
        exact ⟨Nat.le_refl _, by omega, ih _ _ _⟩
      · rename_i hm
        exact SpanChain_mono (by omega) (ih (some c) rest (base + 1))

/-! ## C3 and C7: the exact-text tier -/

theorem positionTier_none_idx (st : HighlightState) (text : Str) (off : Int)
    (h : st.chunkIdx = none) : positionTier st text off = none := by
  simp [positionTier, h]

/-- "The chunk text occurs verbatim in the flat text, allowing internal
whitespace runs (and letter case, which the tier also ignores) to
differ": some decomposition of the text has a middle piece with the
chunk's canonical form. -/
def canonEquivOccurs (chunk text : Str) : Prop :=
  ∃ pre mid post, text = pre ++ mid ++ post ∧ canon mid = canon chunk

theorem exactTier_some_of_occurs (chunk text : Str) (hc : chunk ≠ [])
    (hocc : canonEquivOccurs chunk text) :
    exactTier chunk text =
      some (replaceTagged (canon chunk) false openHL closeM text) ∧
    (replaceTagged (canon chunk) false openHL closeM text).2 ≠ [] := by
  have hpat : canon chunk ≠ [] := fun h => hc ((canon_eq_nil_iff chunk).mp h)
  obtain ⟨pre, mid, post, htext, hmid⟩ := hocc
  have hj : ∃ j, (matchLen (canon chunk) (text.drop j)).isSome := by
    refine ⟨pre.length, ?_⟩
    have hdrop : text.drop pre.length = mid ++ post := by
      rw [htext, List.append_assoc, List.drop_left]
    rw [hdrop]
    obtain ⟨k, hk⟩ := matchLen_of_canon_append (canon chunk) mid post hmid
    simp [hk]
  have hsp : (replaceTagged (canon chunk) false openHL closeM text).2 ≠ [] :=
    scanGo_complete (canon chunk) openHL closeM hpat text.length none text 0
      (Nat.le_refl _) hj
  have hne : (replaceTagged (canon chunk) false openHL closeM text).1 ≠ text :=
    (scanGo_output_ne_iff (canon chunk) false openHL closeM (by decide)
      text.length none text 0).mpr hsp
  refine ⟨?_, hsp⟩
  simp only [exactTier]
  rw [if_pos hne]

/-- C3 (amended): for every chunk without position offsets whose text
occurs in the flat text up to whitespace runs and letter case, the
cascade returns method `exact-text` with at least one span, and every
returned span's substring of the flat text equals the chunk text up to
whitespace runs and letter case (not literally: the marked substring is
the text's variant, see the counterexample). -/
theorem exact_text_locates_equivalent_span (st : HighlightState) (text : Str)
    (off : Int) (hc : st.chunkText ≠ []) (hidx : st.chunkIdx = none)
    (hocc : canonEquivOccurs st.chunkText text) :
    (highlightRun st text off).method = .exactText ∧
    (highlightRun st text off).spans ≠ [] ∧
    ∀ pe ∈ (highlightRun st text off).spans,
      pe.2 ≤ text.length ∧
        canon (sliceJS text pe.1 pe.2) = canon st.chunkText := by
  have hne : st.chunkText.isEmpty = false := by simpa [List.isEmpty_iff] using hc
  obtain ⟨hET, hsp⟩ := exactTier_some_of_occurs st.chunkText text hc hocc
  have hpat : canon st.chunkText ≠ [] :=
    fun h => hc ((canon_eq_nil_iff _).mp h)
  simp only [highlightRun, hne, Bool.false_eq_true, if_false,
    positionTier_none_idx st text off hidx, hET]
  refine ⟨by trivial, hsp, ?_⟩
  intro pe hpe
  obtain ⟨h1, h2, h3⟩ := scanGo_spans_facts (canon st.chunkText) openHL closeM
    hpat text.length none text 0 pe hpe
  simp only [Nat.zero_add] at h2
  simp only [Nat.sub_zero] at h3
  refine ⟨h2, ?_⟩
  have hcn := matchLen_canon (canon st.chunkText) (text.drop pe.1) (pe.2 - pe.1)
    (canon_entry_not_ws st.chunkText) h3
  rw [← hcn]
  congr 1
  simp only [sliceJS]
  exact List.drop_take _ _ _

/-- Witness for C3 at a concrete input. -/
theorem exact_text_locates_equivalent_span_witness :
    (highlightRun ⟨strOf "a b", none⟩ (strOf "xx a\nb yy") 0).method
        = .exactText ∧
    (highlightRun ⟨strOf "a b", none⟩ (strOf "xx a\nb yy") 0).spans ≠ [] := by
  have h := exact_text_locates_equivalent_span ⟨strOf "a b", none⟩
    (strOf "xx a\nb yy") 0 (by decide) rfl
    ⟨strOf "xx ", strOf "a\nb", strOf " yy", by decide, by decide⟩
  exact ⟨h.1, h.2.1⟩

/-- C3 counterexample: the chunk `"a b"` occurs in the flat text
`"a\nb"` up to internal whitespace, the cascade answers via the
exact-text tier with span `(0, 3)`, but that span's substring is
`"a\nb"`, not the chunk text — the claim's "substring equals the chunk
text" fails whenever the matched occurrence differs in whitespace (or
case). -/
theorem exact_text_span_not_verbatim_cex :
    canon (strOf "a b") = canon (strOf "a\nb") ∧
    (highlightRun ⟨strOf "a b", none⟩ (strOf "a\nb") 0).method = .exactText ∧
    (highlightRun ⟨strOf "a b", none⟩ (strOf "a\nb") 0).spans = [(0, 3)] ∧
    sliceJS (strOf "a\nb") 0 3 ≠ strOf "a b" := by decide

/-- C7 (amended): the exact-text tier escapes the chunk for literal
matching, treats whitespace runs as matching any whitespace, and is
case-insensitive; but with the `g` flag it marks EVERY non-overlapping
occurrence, scanning left to right — the earliest occurrence is merely
the first span, not the only one.  The span list is ordered and
disjoint, and nothing before the first span's start matches. -/
theorem exact_text_global_leftmost (st : HighlightState) (text : Str)
    (off : Int) (hc : st.chunkText ≠ []) (hidx : st.chunkIdx = none)
    (hocc : canonEquivOccurs st.chunkText text) :
    (highlightRun st text off).method = .exactText ∧
    SpanChain 0 (highlightRun st text off).spans ∧
    ∃ p e rest',
      (highlightRun st text off).spans = (p, e) :: rest' ∧
      (matchLen (canon st.chunkText) (text.drop p)).isSome ∧
      ∀ q < p, matchLen (canon st.chunkText) (text.drop q) = none := by
  have hne : st.chunkText.isEmpty = false := by simpa [List.isEmpty_iff] using hc
  obtain ⟨hET, hsp⟩ := exactTier_some_of_occurs st.chunkText text hc hocc
  have hpat : canon st.chunkText ≠ [] :=
    fun h => hc ((canon_eq_nil_iff _).mp h)
  simp only [highlightRun, hne, Bool.false_eq_true, if_false,
    positionTier_none_idx st text off hidx, hET]
  refine ⟨by trivial, scanGo_spanChain _ _ _ hpat _ _ _ _, ?_⟩
  cases hspans : (replaceTagged (canon st.chunkText) false openHL closeM text).2 with
  | nil => exact absurd hspans hsp
  | cons pe rest' =>
    obtain ⟨p, e⟩ := pe
    refine ⟨p, e, rest', rfl, ?_, ?_⟩
    · have hmem : (p, e) ∈
          (replaceTagged (canon st.chunkText) false openHL closeM text).2 := by
        rw [hspans]; simp
      obtain ⟨-, -, h3⟩ := scanGo_spans_facts (canon st.chunkText) openHL closeM
        hpat text.length none text 0 (p, e) hmem
      simp only [Nat.sub_zero] at h3
      simp [h3]
    · intro q hq
      have := scanGo_leftmost (canon st.chunkText) openHL closeM
        text.length none text 0 p e rest' hspans q (Nat.zero_le q) hq
      simpa using this

/-- Witness for C7 at a concrete input. -/
theorem exact_text_global_leftmost_witness :
    (highlightRun ⟨strOf "ab", none⟩ (strOf "zz ab ab") 0).method
        = .exactText ∧
    SpanChain 0 (highlightRun ⟨strOf "ab", none⟩ (strOf "zz ab ab") 0).spans := by
  have h := exact_text_global_leftmost ⟨strOf "ab", none⟩ (strOf "zz ab ab") 0
    (by decide) rfl ⟨strOf "zz ", strOf "ab", strOf " ab", by decide, by decide⟩
  exact ⟨h.1, h.2.1⟩

/-- C7 counterexample: with chunk `"ab"` and flat text `"ab ab"` the
pattern occurs twice; the source marks BOTH occurrences
(`text.replace` with the `g` flag), so the returned span list is not
"the earliest occurrence only" as the claim states. -/
theorem exact_text_marks_all_occurrences_cex :
    (highlightRun ⟨strOf "ab", none⟩ (strOf "ab ab") 0).spans = [(0, 2), (3, 5)] ∧
    (highlightRun ⟨strOf "ab", none⟩ (strOf "ab ab") 0).spans ≠ [(0, 2)] := by
  decide

/-! ## C9: span bounds -/

theorem insertBy_pairwise {α : Type} (lt : α → α → Bool)
    (hasym : ∀ a b, lt a b = true → lt b a = false)
    (htrans : ∀ a b c, lt b a = false → lt c b = false → lt c a = false)
    (x : α) (l : List α) (hl : l.Pairwise (fun a b => lt b a = false)) :
    (insertBy lt x l).Pairwise (fun a b => lt b a = false) := by
  induction l with
  | nil => simp [insertBy]
  | cons y ys ih =>
    obtain ⟨hy, hys⟩ := List.pairwise_cons.mp hl
    simp only [insertBy]
    split
    · rename_i hlt
      rw [List.pairwise_cons]
      refine ⟨?_, ih hys⟩
      intro z hz
      rcases (mem_insertBy lt x z ys).mp hz with h | h
      · rw [h]; exact hasym y x hlt
      · exact hy z h
    · rename_i hlt
      rw [List.pairwise_cons]
      refine ⟨?_, hl⟩
      intro z hz
      rcases List.mem_cons.mp hz with h | h
      · rw [h]; simpa using hlt
      · exact htrans x y z (by simpa using hlt) (hy z h)

theorem stableSortBy_pairwise {α : Type} (lt : α → α → Bool)
    (hasym : ∀ a b, lt a b = true → lt b a = false)
    (htrans : ∀ a b c, lt b a = false → lt c b = false → lt c a = false)
    (l : List α) :
    (stableSortBy lt l).Pairwise (fun a b => lt b a = false) := by
  induction l with
  | nil => simp [stableSortBy]
  | cons x xs ih =>
    exact insertBy_pairwise lt hasym htrans x (stableSortBy lt xs) ih

theorem sentenceHere_length_le (s : Str) :
    (sentenceHere s).length ≤ s.length := by
  have htw : (s.takeWhile (fun c => !isTermCh c)).length ≤ s.length :=
    List.Sublist.length_le (List.takeWhile_sublist _)
  simp only [sentenceHere]
  split
  · exact htw
  · rename_i c rest2 heq
    have h2 := congrArg List.length heq
    simp only [List.length_drop, List.length_cons] at h2
    split
    · simp only [List.length_append, List.length_cons, List.length_nil]
      omega
    · simp only [List.length_append]
      rw [heq]
      have h3 : ((c :: rest2).takeWhile
          (fun c => isTermCh c && c ≠ 10)).length ≤ (c :: rest2).length :=
        List.Sublist.length_le (List.takeWhile_sublist _)
      simp only [List.length_cons] at h3
      omega

theorem splitIntoSentencesGo_bounds :
    ∀ (fuel : Nat) (s : Str) (pos : Nat),
    ∀ sen ∈ splitIntoSentencesGo fuel s pos,
      pos ≤ sen.start ∧ sen.start < sen.stop ∧ sen.stop ≤ pos + s.length := by
  intro fuel
  induction fuel with
  | zero => intro s pos sen hsen; simp [splitIntoSentencesGo] at hsen
  | succ fuel ih =>
    intro s pos sen hsen
    cases s with
    | nil => simp [splitIntoSentencesGo] at hsen
    | cons c rest =>
      simp only [splitIntoSentencesGo] at hsen
      split at hsen
      · have := ih rest (pos + 1) sen hsen
        simp only [List.length_cons]
        omega
      · rename_i hterm
        have hlen1 : 0 < (sentenceHere (c :: rest)).length :=
          sentenceHere_length_pos rest (by simpa using hterm)
        have hlen2 : (sentenceHere (c :: rest)).length ≤ (c :: rest).length :=
          sentenceHere_length_le (c :: rest)
        split at hsen
        · rcases List.mem_cons.mp hsen with h | h
          · subst h
            simp only
            omega
          · have := ih _ _ sen h
            simp only [List.length_drop] at this
            omega
        · have := ih _ _ sen hsen
          simp only [List.length_drop] at this
          omega

theorem splitIntoSentences_bounds (text : Str) :
    ∀ sen ∈ splitIntoSentences text,
      sen.start < sen.stop ∧ sen.stop ≤ text.length := by
  intro sen hsen
  have := splitIntoSentencesGo_bounds text.length text 0 sen hsen
  omega

theorem topMatchesOf_mem (text : Str) (cw : List Str) (x : SSent)
    (hx : x ∈ topMatchesOf text cw) : x.sent ∈ splitIntoSentences text := by
  have h1 := List.mem_of_mem_take hx
  have h2 := List.mem_of_mem_filter h1
  have h3 := (mem_stableSortBy _ x _).mp h2
  simp only [scoredSentencesOf, List.mem_map] at h3
  obtain ⟨s, hs, hxs⟩ := h3
  rw [← hxs]
  exact hs

theorem mergeGo_good (len : Nat) :
    ∀ (l : List (Nat × Nat)) (cur : Nat × Nat),
    cur.1 < cur.2 → cur.2 ≤ len →
    (∀ x ∈ l, x.1 < x.2 ∧ x.2 ≤ len ∧ cur.1 ≤ x.1) →
    l.Pairwise (fun a b => a.1 ≤ b.1) →
    SpanChain cur.1 (mergeGo cur l) ∧ ∀ x ∈ mergeGo cur l, x.2 ≤ len := by
  intro l
  induction l with
  | nil =>
    intro cur h1 h2 _ _
    exact ⟨⟨Nat.le_refl _, h1, trivial⟩, by simpa [mergeGo]⟩
  | cons m rest ih =>
    intro cur h1 h2 hall hpw
    obtain ⟨hm1, hm2, hm3⟩ := hall m (by simp)
    obtain ⟨hmrest, hpw'⟩ := List.pairwise_cons.mp hpw
    simp only [mergeGo]
    split
    · -- extend the last region
      exact ih (cur.1, m.2) (by simp; omega) (by simpa using hm2)
        (fun x hx => ⟨(hall x (by simp [hx])).1, (hall x (by simp [hx])).2.1,
          (hall x (by simp [hx])).2.2⟩) hpw'
    · -- push the last region, restart from m
      rename_i hgap
      have hih := ih m hm1 hm2
        (fun x hx => ⟨(hall x (by simp [hx])).1, (hall x (by simp [hx])).2.1,
          hmrest x hx⟩) hpw'
      constructor
      · refine ⟨Nat.le_refl _, h1, SpanChain_mono ?_ hih.1⟩
        omega
      · intro x hx
        rcases List.mem_cons.mp hx with h | h
        · subst h; exact h2
        · exact hih.2 x h

theorem mergeRegions_good (len : Nat) (l : List (Nat × Nat))
    (hall : ∀ x ∈ l, x.1 < x.2 ∧ x.2 ≤ len)
    (hpw : l.Pairwise (fun a b => a.1 ≤ b.1)) :
    SpanChain 0 (mergeRegions l) ∧ ∀ x ∈ mergeRegions l, x.2 ≤ len := by
  cases l with
  | nil => exact ⟨trivial, by simp [mergeRegions]⟩
  | cons m rest =>
    obtain ⟨hm1, hm2⟩ := hall m (by simp)
    obtain ⟨hmrest, hpw'⟩ := List.pairwise_cons.mp hpw
    have h := mergeGo_good len rest m hm1 hm2
      (fun x hx => ⟨(hall x (by simp [hx])).1, (hall x (by simp [hx])).2,
        hmrest x hx⟩) hpw'
    exact ⟨SpanChain_mono (Nat.zero_le _) h.1, h.2⟩

theorem windowScanGo_inv (text : Str) (cw : List Str) (L : Nat)
    (hL : L ≤ text.length) :
    ∀ (fuel i : Nat) (best : Rat × Nat × Nat),
    (0 < best.1 → best.2.1 < best.2.2 ∧ best.2.2 ≤ text.length) →
    (0 < (windowScanGo text cw L fuel i best).1 →
      (windowScanGo text cw L fuel i best).2.1 <
        (windowScanGo text cw L fuel i best).2.2 ∧
      (windowScanGo text cw L fuel i best).2.2 ≤ text.length) := by
  intro fuel
  induction fuel with
  | zero => intro i best hbest; exact hbest
  | succ fuel ih =>
    intro i best hbest
    simp only [windowScanGo]
    split
    · rename_i hi
      apply ih
      split
      · intro _
        constructor
        · have h1 : i < text.length := by omega
          simp only [lt_min_iff]
          omega
        · simp only [min_le_iff]
          omega
      · exact hbest
    · exact hbest

theorem windowBestOf_good (text : Str) (cw : List Str)
    (h : 0 < (windowBestOf text cw).1) :
    (windowBestOf text cw).2.1 < (windowBestOf text cw).2.2 ∧
      (windowBestOf text cw).2.2 ≤ text.length := by
  exact windowScanGo_inv text cw (text.length - 30) (by omega)
    (text.length - 30) 0 (0, 0, 0) (by intro hc; exact absurd hc (by norm_num)) h

theorem expandLeft_le (text : Str) : ∀ i, expandLeft text i ≤ i := by
  intro i
  induction i with
  | zero => simp [expandLeft]
  | succ i ih =>
    simp only [expandLeft]
    split
    · exact Nat.le_refl _
    · omega

theorem expandRightGo_ge (text : Str) :
    ∀ (fuel i : Nat), i ≤ expandRightGo text fuel i := by
  intro fuel
  induction fuel with
  | zero => intro i; simp [expandRightGo]
  | succ fuel ih =>
    intro i
    simp only [expandRightGo]
    split
    · split
      · exact Nat.le_refl _
      · have := ih (i + 1)
        omega
    · exact Nat.le_refl _

theorem expandRightGo_le (text : Str) :
    ∀ (fuel i : Nat), i ≤ text.length → expandRightGo text fuel i ≤ text.length := by
  intro fuel
  induction fuel with
  | zero => intro i h; simpa [expandRightGo] using h
  | succ fuel ih =>
    intro i h
    simp only [expandRightGo]
    split
    · rename_i hi
      split
      · exact h
      · exact ih (i + 1) (by omega)
    · exact h

/-- Every region list `findBestMatchingRegions` produces is an ordered,
disjoint list of non-degenerate spans within the text's bounds. -/
theorem fbmr_regions_good (text : Str) (cw : List Str) :
    SpanChain 0 (findBestMatchingRegions text cw).1 ∧
    ∀ x ∈ (findBestMatchingRegions text cw).1, x.2 ≤ text.length := by
  simp only [findBestMatchingRegions]
  split
  · exact ⟨trivial, by simp⟩
  · split
    · split
      · -- sliding-window region
        rename_i hpos
        obtain ⟨hw1, hw2⟩ := windowBestOf_good text cw hpos
        have hbs := expandLeft_le text (windowBestOf text cw).2.1
        have hbe1 := expandRightGo_ge text (text.length + 1) (windowBestOf text cw).2.2
        have hbe2 := expandRightGo_le text (text.length + 1)
          (windowBestOf text cw).2.2 hw2
        constructor
        · refine ⟨Nat.zero_le _, ?_, trivial⟩
          simp only [expandRight, lt_min_iff]
          omega
        · intro x hx
          simp only [List.mem_singleton] at hx
          subst hx
          simp only [min_le_iff]
          omega
      · split
        · -- default head
          rename_i hlen
          constructor
          · refine ⟨Nat.le_refl _, ?_, trivial⟩
            simp only [lt_min_iff]
            omega
          · intro x hx
            simp only [List.mem_singleton] at hx
            subst hx
            simp only [min_le_iff]
            omega
        · exact ⟨trivial, by simp⟩
    · -- merged sentence regions
      apply mergeRegions_good
      · intro x hx
        simp only [List.mem_map] at hx
        obtain ⟨s, hs, hxs⟩ := hx
        have hmem := (mem_stableSortBy _ s _).mp hs
        have hb := splitIntoSentences_bounds text s.sent
          (topMatchesOf_mem text cw s hmem)
        rw [← hxs]
        exact hb
      · have hpw := stableSortBy_pairwise
          (fun (a b : SSent) => decide (a.sent.start < b.sent.start))
          (by intro a b h; simp at h ⊢; omega)
          (by intro a b c h1 h2; simp at h1 h2 ⊢; omega)
          (topMatchesOf text cw)
        refine List.Pairwise.map _ ?_ hpw
        intro a b h
        simp at h
        simpa using h

theorem positionTier_some_bounds (st : HighlightState) (text : Str) (off : Int)
    (o : Str) (sp : List (Nat × Nat))
    (h : positionTier st text off = some (o, sp)) :
    ∀ pe ∈ sp, pe.1 ≤ text.length ∧ pe.2 ≤ text.length := by
  cases hidx : st.chunkIdx with
  | none => rw [positionTier_none_idx st text off hidx] at h; cases h
  | some p =>
    obtain ⟨s, e⟩ := p
    simp only [positionTier, hidx] at h
    split at h
    · rename_i hcond
      obtain ⟨h1, h2, h3, h4⟩ := hcond
      have hsp2 : sp = [((s - off).toNat, (e - off).toNat)] := by
        have h5 := congrArg (fun x => Option.map Prod.snd x) h
        simpa using h5.symm
      subst hsp2
      intro pe hpe
      simp only [List.mem_singleton] at hpe
      subst hpe
      refine ⟨?_, ?_⟩
      · show (s - off).toNat ≤ text.length
        omega
      · show (e - off).toNat ≤ text.length
        omega
    · cases h

/-- C9 (amended): every span any tier reports lies within the flat
text's bounds, and every span from a text-matching tier (exact, prefix,
fuzzy-region, default-head) has `end > start`; the position tier simply
copies the chunk's own offsets, so a chunk with `endIdx ≤ startIdx`
yields a degenerate (or reversed) span — see the counterexample. -/
theorem span_bounds_invariant (st : HighlightState) (text : Str) (off : Int) :
    (∀ pe ∈ (highlightRun st text off).spans,
        pe.1 ≤ text.length ∧ pe.2 ≤ text.length) ∧
    ((highlightRun st text off).method ≠ .exactPosition →
      ∀ pe ∈ (highlightRun st text off).spans, pe.1 < pe.2) := by
  by_cases hne : st.chunkText.isEmpty
  · simp [highlightRun, hne]
  · have hne' : st.chunkText.isEmpty = false := by simpa using hne
    have hcne : st.chunkText ≠ [] := by simpa [List.isEmpty_iff] using hne
    have hpat : canon st.chunkText ≠ [] :=
      fun h => hcne ((canon_eq_nil_iff _).mp h)
    simp only [highlightRun, hne', Bool.false_eq_true, if_false]
    cases hp : positionTier st text off with
    | some v =>
      obtain ⟨o, sp⟩ := v
      refine ⟨positionTier_some_bounds st text off o sp hp, ?_⟩
      intro hm
      exact absurd rfl hm
    | none =>
    cases he : exactTier st.chunkText text with
    | some v =>
      obtain ⟨o, sp⟩ := v
      have hsp : sp = (replaceTagged (canon st.chunkText) false openHL closeM text).2 := by
        simp only [exactTier] at he
        split at he
        · have := congrArg (fun x => Option.map Prod.snd x) he
          simpa using this.symm
        · cases he
      subst hsp
      constructor
      · intro pe hpe
        obtain ⟨h1, h2, h3⟩ := scanGo_spans_facts (canon st.chunkText) openHL
          closeM hpat text.length none text 0 pe hpe
        have hk := matchLen_pos _ _ _ hpat h3
        simp only [Nat.zero_add] at h2
        omega
      · intro _ pe hpe
        obtain ⟨h1, h2, h3⟩ := scanGo_spans_facts (canon st.chunkText) openHL
          closeM hpat text.length none text 0 pe hpe
        have hk := matchLen_pos _ _ _ hpat h3
        omega
    | none =>
    cases hpre : prefixTierRun st.chunkText text with
    | some v =>
      obtain ⟨o, sp⟩ := v
      have hlen : 100 < st.chunkText.length ∧
          sp = (replaceTagged (canon (st.chunkText.take 100)) false openHL
            closeM text).2 := by
        simp only [prefixTierRun] at hpre
        split at hpre
        · rename_i h100
          split at hpre
          · refine ⟨h100, ?_⟩
            have := congrArg (fun x => Option.map Prod.snd x) hpre
            simpa using this.symm
          · cases hpre
        · cases hpre
      obtain ⟨h100, hsp⟩ := hlen
      have hpat2 : canon (st.chunkText.take 100) ≠ [] := by
        intro h
        have := (canon_eq_nil_iff _).mp h
        have := congrArg List.length this
        simp only [List.length_take, List.length_nil] at this
        omega
      subst hsp
      constructor
      · intro pe hpe
        obtain ⟨h1, h2, h3⟩ := scanGo_spans_facts _ openHL closeM hpat2
          text.length none text 0 pe hpe
        have hk := matchLen_pos _ _ _ hpat2 h3
        simp only [Nat.zero_add] at h2
        omega
      · intro _ pe hpe
        obtain ⟨h1, h2, h3⟩ := scanGo_spans_facts _ openHL closeM hpat2
          text.length none text 0 pe hpe
        have hk := matchLen_pos _ _ _ hpat2 h3
        omega
    | none =>
    cases hw : wordTier st.chunkText text with
    | some o => simp
    | none =>
    cases hf : fuzzyTier st.chunkText text with
    | some v =>
      obtain ⟨o, v'⟩ := v
      obtain ⟨rg, kd⟩ := v'
      have hrg : rg = (findBestMatchingRegions text
          (getSignificantWords st.chunkText)).1 := by
        simp only [fuzzyTier] at hf
        split at hf
        · cases hf
        · have := congrArg (fun x => Option.map (fun y => y.2.1) x) hf
          simpa using this.symm
      subst hrg
      obtain ⟨hch, hbnd⟩ := fbmr_regions_good text (getSignificantWords st.chunkText)
      have hmem := spanChain_mem hch
      constructor
      · intro pe hpe
        have h1 := hmem pe hpe
        have h2 := hbnd pe hpe
        omega
      · intro _ pe hpe
        exact (hmem pe hpe).2
    | none =>
    cases hwa : wordAnyTier st.chunkText text with
    | some o => simp
    | none => simp

/-- Witness for C9 at a concrete input (the second conjunct's
hypothesis discharged concretely). -/
theorem span_bounds_invariant_witness :
    (highlightRun ⟨strOf "ab", none⟩ (strOf "ab ab") 0).method
        ≠ .exactPosition ∧
    (0, 2) ∈ (highlightRun ⟨strOf "ab", none⟩ (strOf "ab ab") 0).spans ∧
    ((0 : Nat) < 2 ∧ 2 ≤ (strOf "ab ab").length) :=
  ⟨by decide, by decide,
    (span_bounds_invariant ⟨strOf "ab", none⟩ (strOf "ab ab") 0).2
      (by decide) (0, 2) (by decide),
    ((span_bounds_invariant ⟨strOf "ab", none⟩ (strOf "ab ab") 0).1
      (0, 2) (by decide)).2⟩

/-- C9 counterexample: a chunk whose offsets satisfy the position
tier's range checks but have `endIdx = startIdx` produces a reported
match with a degenerate span `(1, 1)` — `end > start` fails although a
match was reported. -/
theorem position_tier_degenerate_span_cex :
    (highlightRun ⟨strOf "x", some (1, 1)⟩ (strOf "abc") 0).method
        = .exactPosition ∧
    (1, 1) ∈ (highlightRun ⟨strOf "x", some (1, 1)⟩ (strOf "abc") 0).spans := by
  decide

/-! ## C10: the output is the input with wrappers inserted

`stripMarks` removes every occurrence of the four wrapper tags the
cascade can insert, scanning left to right. -/

def markTags : List Str := [openHL, openWord, openFuzzy, closeM]

def stripGo : Nat → Str → Str
  | _, [] => []
  | skip + 1, _ :: rest => stripGo skip rest
  | 0, c :: rest =>
    match markTags.find? (fun t => isPrefixStr t (c :: rest)) with
    | Option.some t => stripGo (t.length - 1) rest
    | Option.none => c :: stripGo 0 rest

def stripMarks (s : Str) : Str := stripGo 0 s

theorem stripGo_openHL (bb : Str) : stripGo 0 (openHL ++ bb) = stripGo 0 bb := rfl

theorem stripGo_openWord (bb : Str) :
    stripGo 0 (openWord ++ bb) = stripGo 0 bb := rfl

theorem stripGo_openFuzzy (bb : Str) :
    stripGo 0 (openFuzzy ++ bb) = stripGo 0 bb := rfl

theorem stripGo_closeM (bb : Str) : stripGo 0 (closeM ++ bb) = stripGo 0 bb := rfl

theorem markTags_head : ∀ t ∈ markTags, t.head? = some 60 := by decide

/-- Stripping leaves tag-free text (no `<`, code 60) untouched. -/
theorem stripGo_clean_append (a : Str) (ha : ∀ x ∈ a, x ≠ 60) (b : Str) :
    stripGo 0 (a ++ b) = a ++ stripGo 0 b := by
  induction a with
  | nil => rfl
  | cons c a' ih =>
    have hc : c ≠ 60 := ha c (by simp)
    have hfind : markTags.find?
        (fun t => isPrefixStr t (c :: (a' ++ b))) = none := by
      apply List.find?_eq_none.mpr
      intro t ht
      have h60 := markTags_head t ht
      cases t with
      | nil => cases h60
      | cons th tt =>
        have : th = 60 := by simpa using h60
        subst this
        simp [isPrefixStr, Ne.symm hc]
    show (match markTags.find? (fun t => isPrefixStr t (c :: (a' ++ b))) with
        | Option.some t => stripGo (t.length - 1) (a' ++ b)
        | Option.none => c :: stripGo 0 (a' ++ b)) = c :: (a' ++ stripGo 0 b)
    rw [hfind]
    exact congrArg (List.cons c) (ih (fun x hx => ha x (by simp [hx])))

theorem stripGo_clean (a : Str) (ha : ∀ x ∈ a, x ≠ 60) :
    stripGo 0 a = a := by
  have h2 := stripGo_clean_append a ha []
  have h3 : stripGo 0 ([] : Str) = [] := rfl
  rw [h3] at h2
  simpa using h2

theorem mem_sliceJS {x : Nat} (text : Str) (a b : Nat)
    (h : x ∈ sliceJS text a b) : x ∈ text := by
  simp only [sliceJS] at h
  exact List.mem_of_mem_take (List.mem_of_mem_drop h)

theorem mem_take_of (text : Str) (n : Nat) {x : Nat} (h : x ∈ text.take n) :
    x ∈ text := List.mem_of_mem_take h

theorem mem_drop_of (text : Str) (n : Nat) {x : Nat} (h : x ∈ text.drop n) :
    x ∈ text := List.mem_of_mem_drop h

/-- Splitting a drop at a later position. -/
theorem slice_glue (text : Str) (a b : Nat) (hab : a ≤ b) :
    text.drop a = sliceJS text a b ++ text.drop b := by
  by_cases hb : b ≤ text.length
  · conv_lhs => rw [← List.take_append_drop b text]
    rw [List.drop_append_of_le_length (by simp [List.length_take]; omega)]
    rfl
  · have hbl : text.length ≤ b := by omega
    simp only [sliceJS]
    rw [List.take_of_length_le hbl, List.drop_eq_nil_of_le hbl]
    simp

/-- Stripping the exact/prefix tier's rewritten string restores the
input, provided the input itself contains no `<`. -/
theorem scanGo_strip (pat : List (Option Nat)) (b : Bool) (op cl : Str)
    (hop : ∀ bb, stripGo 0 (op ++ bb) = stripGo 0 bb)
    (hcl : ∀ bb, stripGo 0 (cl ++ bb) = stripGo 0 bb) :
    ∀ (fuel : Nat) (prev : Option Nat) (s : Str) (base : Nat),
    (∀ x ∈ s, x ≠ 60) →
    stripGo 0 (scanGo pat b op cl fuel prev s base).1 = s := by
  intro fuel
  induction fuel with
  | zero => intro prev s base hs; exact stripGo_clean s hs
  | succ fuel ih =>
    intro prev s base hs
    cases s with
    | nil => rfl
    | cons c rest =>
      simp only [scanGo]
      split
      · rename_i k hm
        split
        · -- zero-width match (unreachable for the built patterns)
          simp only [List.append_assoc]
          rw [hop, hcl]
          have := stripGo_clean_append [c] (by simpa using hs c (by simp))
            (scanGo pat b op cl fuel (some c) rest (base + 1)).1
          simp only [List.singleton_append] at this
          rw [this]
          rw [ih (some c) rest (base + 1) (fun x hx => hs x (by simp [hx]))]
        · rename_i hk0
          simp only [List.append_assoc]
          rw [hop]
          have hmc : ∀ x ∈ (c :: rest).take k, x ≠ 60 :=
            fun x hx => hs x (List.mem_of_mem_take hx)
          rw [stripGo_clean_append _ hmc, hcl]
          rw [ih _ _ _ (fun x hx => hs x (List.mem_of_mem_drop hx))]
          exact List.take_append_drop k (c :: rest)
      · rename_i hm
        have := stripGo_clean_append [c] (by simpa using hs c (by simp))
          (scanGo pat b op cl fuel (some c) rest (base + 1)).1
        simp only [List.singleton_append] at this
        rw [this]
        rw [ih (some c) rest (base + 1) (fun x hx => hs x (by simp [hx]))]

/-- Stripping the fuzzy tier's rendered string restores the suffix it
was rendered from. -/
theorem renderRegions_strip (text : Str) (hclean : ∀ x ∈ text, x ≠ 60) :
    ∀ (rs : List (Nat × Nat)) (lastEnd : Nat),
    SpanChain lastEnd rs →
    stripGo 0 (renderRegions text lastEnd rs) = text.drop lastEnd := by
  intro rs
  induction rs with
  | nil =>
    intro lastEnd _
    exact stripGo_clean _ (fun x hx => hclean x (mem_drop_of text lastEnd hx))
  | cons pe rest ih =>
    obtain ⟨s, e⟩ := pe
    intro lastEnd hch
    obtain ⟨h1, h2, h3⟩ := hch
    simp only [renderRegions, List.append_assoc]
    rw [stripGo_clean_append _ (fun x hx => hclean x (mem_sliceJS text _ _ hx))]
    rw [stripGo_openFuzzy]
    rw [stripGo_clean_append _ (fun x hx => hclean x (mem_sliceJS text _ _ hx))]
    rw [stripGo_closeM]
    rw [ih e h3]
    rw [slice_glue text lastEnd s h1, slice_glue text s e (Nat.le_of_lt h2)]

/-- C10 (amended): whenever the result comes from the exact-text,
prefix, fuzzy-region or default-head tier on a flat text containing no
`<` (code 60), or from the position tier with `startIdx ≤ endIdx`,
stripping the highlight wrappers from the output restores the input
exactly; when nothing matches the input is returned unchanged.  (The
two word tiers rewrite their own previously inserted markup and a
reversed position index duplicates text — see the counterexample.) -/
theorem output_is_input_with_wrappers (st : HighlightState) (text : Str)
    (off : Int) (hclean : ∀ x ∈ text, x ≠ 60) :
    ((highlightRun st text off).method = .unmatched →
      (highlightRun st text off).output = text) ∧
    (((highlightRun st text off).method = .exactText ∨
      (highlightRun st text off).method = .prefixTier ∨
      (highlightRun st text off).method = .fuzzyRegion ∨
      (highlightRun st text off).method = .defaultHead) →
      stripMarks (highlightRun st text off).output = text) ∧
    (∀ s e : Int, st.chunkIdx = some (s, e) → s ≤ e →
      (highlightRun st text off).method = .exactPosition →
      stripMarks (highlightRun st text off).output = text) := by
  by_cases hne : st.chunkText.isEmpty
  · have hrun : highlightRun st text off = ⟨text, .unmatched, [], []⟩ := by
      simp [highlightRun, hne]
    rw [hrun]
    exact ⟨fun _ => rfl, fun h => absurd h (by simp),
      fun s e _ _ h => absurd h (by simp)⟩
  · have hne' : st.chunkText.isEmpty = false := by simpa using hne
    simp only [highlightRun, hne', Bool.false_eq_true, if_false]
    cases hp : positionTier st text off with
    | some v =>
      obtain ⟨o, sp⟩ := v
      refine ⟨fun h => absurd h (by simp), fun h => absurd h (by simp),
        fun s e hidx hse _ => ?_⟩
      -- position tier with s ≤ e
      simp only [positionTier, hidx] at hp
      split at hp
      · rename_i hcond
        obtain ⟨h1, h2, h3, h4⟩ := hcond
        have ho : o = text.take (s - off).toNat ++ openHL ++
            sliceJS text (s - off).toNat (e - off).toNat ++ closeM ++
            text.drop (e - off).toNat := by
          have h5 := congrArg (fun x => Option.map Prod.fst x) hp
          simpa using h5.symm
        have hab : (s - off).toNat ≤ (e - off).toNat := by omega
        simp only [ho, stripMarks, List.append_assoc]
        rw [stripGo_clean_append _ (fun x hx => hclean x (mem_take_of text _ hx))]
        rw [stripGo_openHL]
        rw [stripGo_clean_append _ (fun x hx => hclean x (mem_sliceJS text _ _ hx))]
        rw [stripGo_closeM]
        rw [stripGo_clean _ (fun x hx => hclean x (mem_drop_of text _ hx))]
        conv_rhs => rw [← List.take_append_drop (s - off).toNat text]
        rw [slice_glue text (s - off).toNat (e - off).toNat hab]
      · cases hp
    | none =>
    cases he : exactTier st.chunkText text with
    | some v =>
      obtain ⟨o, sp⟩ := v
      have ho : o = (replaceTagged (canon st.chunkText) false openHL closeM text).1 := by
        simp only [exactTier] at he
        split at he
        · have h5 := congrArg (fun x => Option.map Prod.fst x) he
          simpa using h5.symm
        · cases he
      refine ⟨fun h => absurd h (by simp), fun _ => ?_,
        fun s e hidx hse h => absurd h (by simp)⟩
      subst ho
      exact scanGo_strip (canon st.chunkText) false openHL closeM
        stripGo_openHL stripGo_closeM text.length none text 0 hclean
    | none =>
    cases hpre : prefixTierRun st.chunkText text with
    | some v =>
      obtain ⟨o, sp⟩ := v
      have ho : o = (replaceTagged (canon (st.chunkText.take 100)) false openHL
          closeM text).1 := by
        simp only [prefixTierRun] at hpre
        split at hpre
        · split at hpre
          · have h5 := congrArg (fun x => Option.map Prod.fst x) hpre
            simpa using h5.symm
          · cases hpre
        · cases hpre
      refine ⟨fun h => absurd h (by simp), fun _ => ?_,
        fun s e hidx hse h => absurd h (by simp)⟩
      subst ho
      exact scanGo_strip _ false openHL closeM stripGo_openHL stripGo_closeM
        text.length none text 0 hclean
    | none =>
    cases hw : wordTier st.chunkText text with
    | some o =>
      exact ⟨fun h => absurd h (by simp), fun h => absurd h (by simp),
        fun s e hidx hse h => absurd h (by simp)⟩
    | none =>
    cases hf : fuzzyTier st.chunkText text with
    | some v =>
      obtain ⟨o, v'⟩ := v
      obtain ⟨rg, kd⟩ := v'
      have ho : o = renderRegions text 0
          (findBestMatchingRegions text (getSignificantWords st.chunkText)).1 := by
        simp only [fuzzyTier] at hf
        split at hf
        · cases hf
        · have h5 := congrArg (fun x => Option.map Prod.fst x) hf
          simpa using h5.symm
      have hstrip : stripMarks o = text := by
        subst ho
        have hch := (fbmr_regions_good text (getSignificantWords st.chunkText)).1
        have := renderRegions_strip text hclean _ 0 hch
        simpa [stripMarks] using this
      cases kd with
      | sentences =>
        exact ⟨fun h => absurd h (by simp), fun _ => hstrip,
          fun s e hidx hse h => absurd h (by simp)⟩
      | window =>
        exact ⟨fun h => absurd h (by simp), fun _ => hstrip,
          fun s e hidx hse h => absurd h (by simp)⟩
      | defaultHead =>
        exact ⟨fun h => absurd h (by simp), fun _ => hstrip,
          fun s e hidx hse h => absurd h (by simp)⟩
      | noRegion =>
        exact ⟨fun h => absurd h (by simp), fun _ => hstrip,
          fun s e hidx hse h => absurd h (by simp)⟩
    | none =>
    cases hwa : wordAnyTier st.chunkText text with
    | some o =>
      exact ⟨fun h => absurd h (by simp), fun h => absurd h (by simp),
        fun s e hidx hse h => absurd h (by simp)⟩
    | none =>
      exact ⟨fun _ => rfl, fun h => absurd h (by simp),
        fun s e hidx hse h => absurd h (by simp)⟩

/-- Witness for C10 at a concrete input (exact-text tier). -/
theorem output_is_input_with_wrappers_witness :
    stripMarks (highlightRun ⟨strOf "ab", none⟩ (strOf "ab ab") 0).output
      = strOf "ab ab" :=
  (output_is_input_with_wrappers ⟨strOf "ab", none⟩ (strOf "ab ab") 0
    (by decide)).2.1 (Or.inl (by decide))

/-- C10 counterexample: a chunk with reversed position offsets
(`start=2`, `end=1`) passes the position tier's range checks on
`"abc"`; the output duplicates the character between the offsets, so
stripping the wrappers yields `"abbc"`, not the input — the highlight
step added document characters. -/
theorem reversed_index_duplicates_text_cex :
    stripMarks (highlightRun ⟨strOf "x", some (2, 1)⟩ (strOf "abc") 0).output
        = strOf "abbc" ∧
    strOf "abbc" ≠ strOf "abc" := by decide

/-! ## C5: the fuzzy tier against the spec's pipeline description

`fuzzySpecStride` is the spec-side pipeline: identical scoring,
threshold, top-5 selection and merging, with the sliding-window stride
left as a parameter.  The source's stride is 30; the spec section
describing the window fallback says 100. -/

def windowScanStride (stride : Nat) (text : Str) (chunkWords : List Str) (L : Nat) :
    Nat → Nat → Rat × Nat × Nat → Rat × Nat × Nat
  | 0, _, best => best
  | fuel + 1, i, best =>
    if i < L then
      let regionEnd := min (i + 400) text.length
      let score := calculateSimilarityScore (sliceJS text i regionEnd) chunkWords
      windowScanStride stride text chunkWords L fuel (i + stride)
        (if best.1 < score then (score, i, regionEnd) else best)
    else best

def windowBestStride (stride : Nat) (text : Str) (chunkWords : List Str) :
    Rat × Nat × Nat :=
  windowScanStride stride text chunkWords (text.length - 30) (text.length - 30)
    0 (0, 0, 0)

def fuzzySpecStride (stride : Nat) (text : Str) (chunkWords : List Str) :
    List (Nat × Nat) × RegionKind :=
  if chunkWords.length = 0 then ([], .noRegion)
  else
    let topMatches := topMatchesOf text chunkWords
    if topMatches.isEmpty then
      let best := windowBestStride stride text chunkWords
      if 0 < best.1 then
        let bs := expandLeft text best.2.1
        let be := expandRight text best.2.2
        ([(bs, min (be + 1) text.length)], .window)
      else if 0 < text.length then
        ([(0, min 500 text.length)], .defaultHead)
      else ([], .noRegion)
    else
      let sortedByPosition :=
        stableSortBy (fun a b => decide (a.sent.start < b.sent.start)) topMatches
      (mergeRegions (sortedByPosition.map (fun s => (s.sent.start, s.sent.stop))),
        .sentences)

theorem windowScanGo_eq_stride (text : Str) (cw : List Str) (L : Nat) :
    ∀ fuel i b, windowScanGo text cw L fuel i b
      = windowScanStride 30 text cw L fuel i b := by
  intro fuel
  induction fuel with
  | zero => intro i b; rfl
  | succ fuel ih =>
    intro i b
    simp only [windowScanGo, windowScanStride]
    by_cases h : i < L
    · simp only [h, if_true]
      exact ih _ _
    · simp [h]

/-- One line of the C5 counterexample text, 10 characters. -/
def cexLine : Str := strOf "aaaa bbb.\x0a"

/-- 470 characters: 47 ten-character lines; line 41 (offset 410)
contains the rare word `qz`. -/
def t5 : Str :=
  (List.replicate 41 cexLine).flatten ++ strOf "qz aa bb.\x0a"
    ++ (List.replicate 5 cexLine).flatten

def cw5 : List Str := getSignificantWords (strOf "qz vvvv")

/-- C5 (amended): the sentence stage is as the claim says — weights
`min(len/4, 3)`, partial credit between ≥5-character words, threshold
`max(1, 0.05·|chunkWords|)`, top 5 by score, merge at gaps under 150 —
but the window fallback steps in strides of 30 characters (window
starts below `len(text) − 30`), not 100: `findBestMatchingRegions`
coincides with the parameterized spec pipeline exactly at stride 30. -/
theorem fuzzy_region_tier_stride_30 (text : Str) (chunkWords : List Str) :
    findBestMatchingRegions text chunkWords
      = fuzzySpecStride 30 text chunkWords := by
  simp only [findBestMatchingRegions, fuzzySpecStride, windowBestOf,
    windowBestStride, windowScanGo_eq_stride]

set_option maxRecDepth 1000000 in
set_option maxHeartbeats 4000000 in
/-- C5 counterexample to the 100-character stride: on a 470-character
text whose only scoring word sits at offset 410, the stride-30 scan
first succeeds at window start 30 and returns region (30, 439), while
a stride-100 scan first succeeds at window start 100 and would return
(100, 470). -/
theorem window_stride_not_100_cex :
    findBestMatchingRegions t5 cw5 = ([(30, 439)], .window) ∧
    fuzzySpecStride 100 t5 cw5 = ([(100, 470)], .window) ∧
    findBestMatchingRegions t5 cw5 ≠ fuzzySpecStride 100 t5 cw5 :=
  of_decide_eq_true (by with_unfolding_all rfl)

/-! ## C4: tree-adapter candidate anchoring (DocumentViewer.tsx 564–616)

The iframe path normalizes the chunk text, extracts distinctive words
(≥4 chars, not in a small stop list), collects candidate positions of
the first five such words (skipping occurrences within 1000 characters
of an existing candidate), scores each candidate by chunk-word density
and anchor context, sorts by context score then chunk score, and
accepts the head only if either score reaches 2. -/

def distStop : List Str :=
  [strOf "this", strOf "that", strOf "with", strOf "from", strOf "have",
   strOf "been", strOf "were", strOf "they", strOf "their", strOf "which",
   strOf "would", strOf "could", strOf "should", strOf "about", strOf "these",
   strOf "those", strOf "other", strOf "into", strOf "more", strOf "some",
   strOf "such", strOf "than", strOf "them", strOf "then", strOf "there",
   strOf "when", strOf "where", strOf "will", strOf "your"]

def getDistinctiveWords (text : Str) : List Str :=
  (tokensOf text).filter (fun w => 4 ≤ w.length && !(distStop.contains w))

/-- `text.replace(/\s+/g, ' ')`: collapse every whitespace run to one
space. -/
def collapseWSGo (inWS : Bool) : Str → Str
  | [] => []
  | c :: rest =>
    if isWS c then
      if inWS then collapseWSGo true rest else 32 :: collapseWSGo true rest
    else c :: collapseWSGo false rest

/-- `highlightChunkText.replace(/\s+/g, ' ').trim()`. -/
def searchTextOf (chunkText : Str) : Str := trimJS (collapseWSGo false chunkText)

/-- `countWordMatches`: one point per word (duplicates included) that
occurs as a substring of the region. -/
def countWordMatches (words : List Str) (text : Str) : Nat :=
  words.countP (fun w => includesJS text w)

structure Cand where
  pos : Nat
  chunkScore : Nat
  contextScore : Nat
deriving DecidableEq

/-- `Math.abs(c.pos - idx) < windowSize` with `windowSize = 1000`. -/
def candNear (c : Cand) (idx : Nat) : Bool :=
  max c.pos idx - min c.pos idx < 1000

/-- `text.indexOf(word, searchPos)`. -/
def indexOfFrom (hay needle : Str) (start : Nat) : Option Nat :=
  (findSub needle (hay.drop start)).map (· + start)

/-- The inner `while` loop over one word's occurrences (fuel-indexed;
each step advances `searchPos` by at least the word's length). -/
def scanOccs (hay word : Str) : Nat → Nat → List Cand → List Cand
  | 0, _, acc => acc
  | fuel + 1, searchPos, acc =>
    if searchPos < hay.length then
      match indexOfFrom hay word searchPos with
      | Option.none => acc
      | Option.some idx =>
        scanOccs hay word fuel (idx + word.length)
          (if acc.any (fun c => candNear c idx) then acc
           else acc ++ [⟨idx, 0, 0⟩])
    else acc

def collectCandidates (hay : Str) (ws : List Str) : List Cand :=
  (ws.take 5).foldl (fun acc w => scanOccs hay w (hay.length + 1) 0 acc) []

/-- Score one candidate: chunk words in `[pos−200, pos+1000)`, previous
anchor words in `[pos−1500, pos)`, next anchor words in
`[pos+500, pos+2000)`. -/
def scoreCand (fl : Str) (chunkWords prevW nextW : List Str) (c : Cand) : Cand :=
  ⟨c.pos,
    countWordMatches chunkWords
      (sliceJS fl (c.pos - 200) (min fl.length (c.pos + 1000))),
    countWordMatches prevW (sliceJS fl (c.pos - 1500) c.pos) +
      countWordMatches nextW
        (sliceJS fl (c.pos + 500) (min fl.length (c.pos + 2000)))⟩

/-- The sort comparator: context score descending, then chunk score
descending. -/
def candBefore (a b : Cand) : Bool :=
  decide (b.contextScore < a.contextScore) ||
    (decide (a.contextScore = b.contextScore) &&
      decide (b.chunkScore < a.chunkScore))

def scoredCandidates (full chunkText prevAnchor nextAnchor : Str) : List Cand :=
  let fl := full.map toLowerN
  let cw := getDistinctiveWords (searchTextOf chunkText)
  (collectCandidates fl cw).map (scoreCand fl cw
    (getDistinctiveWords prevAnchor) (getDistinctiveWords nextAnchor))

/-- The selected anchor candidate: head of the sorted candidate list if
it clears the bar (chunk score ≥ 2 or context score ≥ 2). -/
def selectAnchorCandidate (full chunkText prevAnchor nextAnchor : Str) :
    Option Cand :=
  if (searchTextOf chunkText).isEmpty then Option.none
  else
    match stableSortBy candBefore
        (scoredCandidates full chunkText prevAnchor nextAnchor) with
    | [] => Option.none
    | c :: _ =>
      if 2 ≤ c.chunkScore ∨ 2 ≤ c.contextScore then Option.some c
      else Option.none

/-! The C4 disambiguation input: the same sentence at offsets 0 and
1010, and a previous-anchor sentence at offset 500 — within the second
occurrence's before-context window `[pos−1500, pos)`, while the first
occurrence's before-context window is empty. -/

def chunk4 : Str := strOf "zqqa wppb"

def anchor4 : Str := strOf "kllm noop"

def full4 : Str :=
  chunk4 ++ List.replicate 491 (cc 'x') ++ anchor4
    ++ List.replicate 501 (cc 'x') ++ chunk4

theorem candBefore_irrefl (c : Cand) : candBefore c c = false := by
  simp [candBefore]

theorem candBefore_asym (a b : Cand) (h : candBefore a b = true) :
    candBefore b a = false := by
  simp only [candBefore, Bool.or_eq_true, Bool.and_eq_true, decide_eq_true_eq] at h
  simp only [candBefore, Bool.or_eq_false_iff, Bool.and_eq_false_iff,
    decide_eq_false_iff_not, decide_eq_true_eq]
  omega

theorem candBefore_trans (a b c : Cand) (hba : candBefore b a = false)
    (hcb : candBefore c b = false) : candBefore c a = false := by
  simp only [candBefore, Bool.or_eq_false_iff, Bool.and_eq_false_iff,
    decide_eq_false_iff_not, decide_eq_true_eq] at hba hcb ⊢
  omega

/-! # Claim theorems -/

theorem fuzzyTier_none_iff (chunk text : Str) :
    fuzzyTier chunk text = none ↔
      (findBestMatchingRegions text (getSignificantWords chunk)).1 = [] := by
  simp only [fuzzyTier]
  split <;> rename_i h <;> simp_all [List.isEmpty_iff]

theorem fuzzyTier_some_shape (chunk text : Str) (o : Str)
    (rg : List (Nat × Nat)) (kd : RegionKind)
    (h : fuzzyTier chunk text = some (o, rg, kd)) :
    kd = (findBestMatchingRegions text (getSignificantWords chunk)).2 ∧
      (findBestMatchingRegions text (getSignificantWords chunk)).1 ≠ [] := by
  simp only [fuzzyTier] at h
  split at h
  · exact absurd h (by simp)
  · rename_i hem
    simp only [Option.some.injEq, Prod.mk.injEq] at h
    exact ⟨h.2.2.symm, by simpa [List.isEmpty_iff] using hem⟩

/-- Every tier strictly earlier (in cascade rank) than the tier that
produced the cascade's result fails on its own. -/
theorem tiers_before_method_fail (st : HighlightState) (text : Str) (off : Int) :
    ∀ k, k < methodRank (highlightRun st text off).method →
      tierSucceeds st text off k = false := by
  intro k hk
  by_cases hne : st.chunkText.isEmpty
  · rcases k with _|_|_|_|_|_|n <;> simp [tierSucceeds, hne]
  · have hne' : st.chunkText.isEmpty = false := by simpa using hne
    simp only [highlightRun, hne', Bool.false_eq_true, if_false] at hk
    cases hp : positionTier st text off with
    | some v =>
      obtain ⟨o, sp⟩ := v
      rw [hp] at hk
      simp [methodRank] at hk
    | none =>
    rw [hp] at hk
    cases he : exactTier st.chunkText text with
    | some v =>
      obtain ⟨o, sp⟩ := v
      rw [he] at hk
      simp only [methodRank] at hk
      rcases k with _|n
      · simp [tierSucceeds, hp]
      · omega
    | none =>
    rw [he] at hk
    cases hpre : prefixTierRun st.chunkText text with
    | some v =>
      obtain ⟨o, sp⟩ := v
      rw [hpre] at hk
      simp only [methodRank] at hk
      rcases k with _|_|n <;> simp [tierSucceeds, hp, he] <;> omega
    | none =>
    rw [hpre] at hk
    cases hw : wordTier st.chunkText text with
    | some o =>
      rw [hw] at hk
      simp only [methodRank] at hk
      rcases k with _|_|_|n <;> simp [tierSucceeds, hp, he, hpre] <;> omega
    | none =>
    rw [hw] at hk
    cases hf : fuzzyTier st.chunkText text with
    | some v =>
      obtain ⟨o, v'⟩ := v
      obtain ⟨rg, kd⟩ := v'
      rw [hf] at hk
      obtain ⟨hkd, hnil⟩ := fuzzyTier_some_shape _ _ _ _ _ hf
      cases kd with
      | sentences =>
        simp only [methodRank] at hk
        rcases k with _|_|_|_|n <;> simp [tierSucceeds, hp, he, hpre, hw] <;> omega
      | window =>
        simp only [methodRank] at hk
        rcases k with _|_|_|_|n <;> simp [tierSucceeds, hp, he, hpre, hw] <;> omega
      | defaultHead =>
        simp only [methodRank] at hk
        rcases k with _|_|_|_|_|n <;>
          simp [tierSucceeds, hp, he, hpre, hw, ← hkd] <;> omega
      | noRegion =>
        exact absurd ((fbmr_noRegion_iff text _).mp hkd.symm) hnil
    | none =>
    rw [hf] at hk
    have hnil := (fuzzyTier_none_iff st.chunkText text).mp hf
    have hkind := (fbmr_noRegion_iff text (getSignificantWords st.chunkText)).mpr hnil
    cases hwa : wordAnyTier st.chunkText text with
    | some o =>
      rw [hwa] at hk
      simp only [methodRank] at hk
      rcases k with _|_|_|_|_|_|n <;>
        simp [tierSucceeds, hp, he, hpre, hw, hkind]
    | none =>
      rw [hwa] at hk
      simp only [methodRank] at hk
      rcases k with _|_|_|_|_|_|n <;>
        simp [tierSucceeds, hp, he, hpre, hw, hkind]

/-- C2: the cascade's tiers are tried in the fixed order
position-index, exact-text, prefix, word-overlay, fuzzy-region,
default-head, and the first tier that produces a non-empty result
determines the output: whenever tier `k` produces a result, the
returned method's rank never exceeds `k` (in particular it is never the
method of a tier after `k`). -/
theorem cascade_tier_order_monotone (st : HighlightState) (text : Str)
    (off : Int) (k : Nat) (h : tierSucceeds st text off k = true) :
    methodRank (highlightRun st text off).method ≤ k := by
  by_contra hlt
  have hfail := tiers_before_method_fail st text off k (Nat.lt_of_not_le hlt)
  rw [h] at hfail
  exact absurd hfail (by simp)

/-- Witness for C2 at a concrete input: the exact-text tier succeeds
and the returned method ranks no later than it. -/
theorem cascade_tier_order_monotone_witness :
    tierSucceeds ⟨strOf "ab", none⟩ (strOf "ab ab") 0 1 = true ∧
      methodRank (highlightRun ⟨strOf "ab", none⟩ (strOf "ab ab") 0).method ≤ 1 :=
  ⟨by decide, cascade_tier_order_monotone _ _ _ _ (by decide)⟩

/-- C1: for every chunk whose `startIdx`/`endIdx` offsets are valid and
in range for the flat text being searched (relative to the page start
offset: relative start ≥ 0 and < length, relative end > 0 and ≤
length), the cascade returns method `exact-position` and the marked
span is exactly `{startIdx, endIdx}` (in document coordinates:
span + pageStartOffset = the chunk's offsets); being the first tier it
is preferred over every other tier regardless of the text. -/
theorem exact_position_tier_returns_chunk_span
    (st : HighlightState) (text : Str) (off s e : Int)
    (hc : st.chunkText ≠ [])
    (hidx : st.chunkIdx = some (s, e))
    (h1 : 0 ≤ s - off) (h2 : s - off < (text.length : Int))
    (h3 : 0 < e - off) (h4 : e - off ≤ (text.length : Int)) :
    (highlightRun st text off).method = .exactPosition ∧
    (highlightRun st text off).spans = [((s - off).toNat, (e - off).toNat)] ∧
    (((s - off).toNat : Int) + off = s ∧ ((e - off).toNat : Int) + off = e) := by
  have hne : st.chunkText.isEmpty = false := by
    simpa [List.isEmpty_iff] using hc
  have hpos : positionTier st text off =
      some (text.take (s - off).toNat ++ openHL ++
              sliceJS text (s - off).toNat (e - off).toNat ++ closeM ++
              text.drop (e - off).toNat,
            [((s - off).toNat, (e - off).toNat)]) := by
    simp only [positionTier, hidx]
    rw [if_pos ⟨h1, h2, h3, h4⟩]
  simp only [highlightRun, hne, Bool.false_eq_true, if_false, hpos]
  refine ⟨trivial, trivial, ?_, ?_⟩ <;> omega

/-- Witness for C1 at a concrete input. -/
theorem exact_position_tier_returns_chunk_span_witness :
    (highlightRun ⟨strOf "x", some (1, 2)⟩ (strOf "abc") 0).method
        = .exactPosition ∧
    (highlightRun ⟨strOf "x", some (1, 2)⟩ (strOf "abc") 0).spans = [(1, 2)] := by
  have h := exact_position_tier_returns_chunk_span
    ⟨strOf "x", some (1, 2)⟩ (strOf "abc") 0 1 2
    (by decide) rfl (by decide) (by decide) (by decide) (by decide)
  exact ⟨h.1, h.2.1⟩

/-! ## C8: empty inputs and absence of failures -/

theorem isSome_false_eq_none {α : Type} {o : Option α}
    (h : o.isSome = false) : o = none := by
  cases o with
  | none => rfl
  | some v => simp at h

theorem positionTier_nil (st : HighlightState) (off : Int) :
    positionTier st [] off = none := by
  cases hidx : st.chunkIdx with
  | none => simp [positionTier, hidx]
  | some p =>
    obtain ⟨s, e⟩ := p
    simp only [positionTier, hidx]
    rw [if_neg]
    rintro ⟨hx1, hx2, -, -⟩
    simp only [List.length_nil, Nat.cast_zero] at hx2
    omega

theorem exactTier_nil (chunk : Str) : exactTier chunk [] = none := rfl

theorem prefixTierRun_nil (chunk : Str) : prefixTierRun chunk [] = none := by
  simp only [prefixTierRun]
  split <;> rfl

theorem wordFold_nil (ws : List Str) :
    ws.foldl
      (fun (acc : Str × Bool) w =>
        let r := replaceTagged (canon w) (w.length < 5) openWord closeM acc.1
        if r.1 ≠ acc.1 then (r.1, true) else acc)
      (([] : Str), false) = (([] : Str), false) := by
  induction ws with
  | nil => rfl
  | cons w ws ih =>
    simp only [List.foldl_cons]
    exact ih

theorem wordTier_nil (chunk : Str) : wordTier chunk [] = none := by
  simp only [wordTier]
  split
  · rfl
  · rw [wordFold_nil]
    rfl

theorem fbmr_nil (cw : List Str) :
    findBestMatchingRegions [] cw = ([], .noRegion) := by
  simp only [findBestMatchingRegions]
  split
  · rfl
  · rfl

theorem fuzzyTier_nil (chunk : Str) : fuzzyTier chunk [] = none := by
  simp [fuzzyTier, fbmr_nil]

theorem wordAnyTier_nil (chunk : Str) : wordAnyTier chunk [] = none := by
  simp only [wordAnyTier]
  split
  · rfl
  · have hfold : ∀ (ws : List Str),
        ws.foldl
          (fun acc w => (replaceTagged (canon w) false openWord closeM acc).1)
          ([] : Str) = ([] : Str) := by
      intro ws
      induction ws with
      | nil => rfl
      | cons w ws ih =>
        simp only [List.foldl_cons]
        exact ih
    simp [hfold]

/-- C8 (amended): the cascade is a total function (nothing can throw in
the model: the escaping step makes every built pattern valid, so the
source's tier-level `try/catch` blocks are dead); an empty chunk text
short-circuits to `unmatched` without attempting any tier; an empty
flat text also yields `unmatched` with the input returned unchanged —
but its tiers do run (see the counterexample), they merely all fail. -/
theorem empty_inputs_unmatched (st : HighlightState) (text : Str) (off : Int) :
    (st.chunkText = [] →
      highlightRun st text off = ⟨text, .unmatched, [], []⟩) ∧
    (text = [] →
      (highlightRun st text off).method = .unmatched ∧
      (highlightRun st text off).output = text) := by
  constructor
  · intro hc
    have hne : st.chunkText.isEmpty = true := by simp [List.isEmpty_iff, hc]
    simp [highlightRun, hne]
  · intro ht
    subst ht
    by_cases hne : st.chunkText.isEmpty
    · simp [highlightRun, hne]
    · have hne' : st.chunkText.isEmpty = false := by simpa using hne
      simp only [highlightRun, hne', Bool.false_eq_true, if_false,
        positionTier_nil, exactTier_nil, prefixTierRun_nil, wordTier_nil,
        fuzzyTier_nil, wordAnyTier_nil]
      exact ⟨by trivial, by trivial⟩

/-- Witness for C8 at concrete inputs. -/
theorem empty_inputs_unmatched_witness :
    highlightRun ⟨[], some (0, 1)⟩ (strOf "abc") 0
        = ⟨strOf "abc", .unmatched, [], []⟩ ∧
    (highlightRun ⟨strOf "ab", none⟩ [] 0).method = .unmatched := by
  refine ⟨(empty_inputs_unmatched ⟨[], some (0, 1)⟩ (strOf "abc") 0).1 rfl, ?_⟩
  exact ((empty_inputs_unmatched ⟨strOf "ab", none⟩ [] 0).2 rfl).1

/-- C8 counterexample: with a non-empty chunk and an empty flat text
the cascade does not short-circuit — matching tiers run (and fail); the
result is still `unmatched` with the text unchanged. -/
theorem empty_flat_text_runs_tiers_cex :
    (highlightRun ⟨strOf "a", none⟩ [] 0).method = .unmatched ∧
    (highlightRun ⟨strOf "a", none⟩ [] 0).attempted ≠ [] := by decide

/-! ## C6: when the default-head tier fires -/

/-- C6 (amended): whenever the chunk is non-empty and has at least one
significant word, no earlier tier (position, exact, prefix,
word-overlay) produces a result, no sentence clears the similarity
threshold, the sliding window scores zero, and the flat text is
non-empty, the cascade returns `default-head` with span
`{0, min(500, len(flatText))}`.  (The unamended claim drops the
significant-word requirement; the counterexample shows it false.) -/
theorem default_head_conditions (st : HighlightState) (text : Str) (off : Int)
    (hc : st.chunkText ≠ [])
    (hk : getSignificantWords st.chunkText ≠ [])
    (h0 : tierSucceeds st text off 0 = false)
    (h1 : tierSucceeds st text off 1 = false)
    (h2 : tierSucceeds st text off 2 = false)
    (h3 : tierSucceeds st text off 3 = false)
    (htop : topMatchesOf text (getSignificantWords st.chunkText) = [])
    (hwin : (windowBestOf text (getSignificantWords st.chunkText)).1 = 0)
    (htext : text ≠ []) :
    (highlightRun st text off).method = .defaultHead ∧
    (highlightRun st text off).spans = [(0, min 500 text.length)] := by
  have hne : st.chunkText.isEmpty = false := by simpa [List.isEmpty_iff] using hc
  have hne' : (!st.chunkText.isEmpty) = true := by simp [hne]
  have hfbmr : findBestMatchingRegions text (getSignificantWords st.chunkText)
      = ([(0, min 500 text.length)], .defaultHead) := by
    simp only [findBestMatchingRegions]
    rw [if_neg (by simpa [List.length_eq_zero] using hk)]
    simp only [htop, List.isEmpty_nil, if_true, hwin, lt_irrefl, if_false]
    rw [if_pos (by simpa [List.length_pos] using htext)]
  have hfz : fuzzyTier st.chunkText text
      = some (renderRegions text 0 [(0, min 500 text.length)],
              [(0, min 500 text.length)], .defaultHead) := by
    simp [fuzzyTier, hfbmr]
  have hp : positionTier st text off = none := by
    have := h0
    simp only [tierSucceeds, hne', Bool.true_and] at this
    exact isSome_false_eq_none this
  have he : exactTier st.chunkText text = none := by
    have := h1
    simp only [tierSucceeds, hne', Bool.true_and] at this
    exact isSome_false_eq_none this
  have hpre : prefixTierRun st.chunkText text = none := by
    have := h2
    simp only [tierSucceeds, hne', Bool.true_and] at this
    exact isSome_false_eq_none this
  have hw : wordTier st.chunkText text = none := by
    have := h3
    simp only [tierSucceeds, hne', Bool.true_and] at this
    exact isSome_false_eq_none this
  simp only [highlightRun, hne, Bool.false_eq_true, if_false, hp, he, hpre,
    hw, hfz]
  exact ⟨by trivial, by trivial⟩

/-- Witness for C6 at a concrete input. -/
theorem default_head_conditions_witness :
    (highlightRun ⟨strOf "qqqz", none⟩ (strOf "zzz yyy") 0).method
        = .defaultHead ∧
    (highlightRun ⟨strOf "qqqz", none⟩ (strOf "zzz yyy") 0).spans = [(0, 7)] := by
  have h := default_head_conditions ⟨strOf "qqqz", none⟩ (strOf "zzz yyy") 0
    (by decide) (by decide) (by decide) (by decide) (by decide) (by decide)
    (by decide) (by decide) (by decide)
  exact ⟨h.1, h.2⟩

/-- C6 counterexample: a non-empty flat text on which no tier of the
specification's list (ranks 0–4) produces a result, yet the cascade
returns `unmatched` with no span instead of `default-head` with span
`{0, min(500, len)}` — the chunk (`"the"`) has no significant words, so
the default-head branch is never reached. -/
theorem default_head_not_returned_cex :
    (strOf "zzzz zzzz zzzz" ≠ ([] : Str)) ∧
    (∀ k, k < 5 →
      tierSucceeds ⟨strOf "the", none⟩ (strOf "zzzz zzzz zzzz") 0 k = false) ∧
    (highlightRun ⟨strOf "the", none⟩ (strOf "zzzz zzzz zzzz") 0).method
        = .unmatched ∧
    (highlightRun ⟨strOf "the", none⟩ (strOf "zzzz zzzz zzzz") 0).spans = [] := by
  decide

set_option maxRecDepth 1000000 in
set_option maxHeartbeats 4000000 in
/-- C4: whenever the tree-adapter candidate selection returns a
candidate, that candidate clears the acceptance bar (chunk score ≥ 2 or
context score ≥ 2) and no scored candidate ranks strictly above it
under the order "context score first, chunk score second"; moreover, on
a flat text containing the same sentence at offsets 0 and 1010 with a
previous-anchor sentence identifying the second occurrence, the
selected position is 1010 — the second occurrence, not the first. -/
theorem anchor_context_disambiguation (full chunkText prevAnchor nextAnchor : Str)
    (c : Cand)
    (h : selectAnchorCandidate full chunkText prevAnchor nextAnchor
      = Option.some c) :
    (2 ≤ c.chunkScore ∨ 2 ≤ c.contextScore) ∧
    (∀ c' ∈ scoredCandidates full chunkText prevAnchor nextAnchor,
      candBefore c' c = false) ∧
    selectAnchorCandidate full4 chunk4 anchor4 (strOf "")
      = Option.some ⟨1010, 2, 2⟩ := by
  simp only [selectAnchorCandidate] at h
  split at h
  · exact absurd h (by simp)
  · split at h
    · exact absurd h (by simp)
    · rename_i hd tl hsorted
      split at h
      · rename_i hacc
        obtain rfl : hd = c := by simpa using h
        refine ⟨hacc, ?_, by decide⟩
        intro c' hc'
        have hmem : c' ∈ stableSortBy candBefore
            (scoredCandidates full chunkText prevAnchor nextAnchor) :=
          (mem_stableSortBy _ _ _).mpr hc'
        rw [hsorted] at hmem
        rcases List.mem_cons.mp hmem with rfl | htl
        · exact candBefore_irrefl _
        · have hpw := stableSortBy_pairwise candBefore candBefore_asym
            candBefore_trans
            (scoredCandidates full chunkText prevAnchor nextAnchor)
          rw [hsorted] at hpw
          exact (List.pairwise_cons.mp hpw).1 c' htl
      · exact absurd h (by simp)

set_option maxRecDepth 1000000 in
set_option maxHeartbeats 4000000 in
/-- Witness for C4 at the concrete disambiguation input. -/
theorem anchor_context_disambiguation_witness :
    (2 ≤ (Cand.mk 1010 2 2).chunkScore ∨ 2 ≤ (Cand.mk 1010 2 2).contextScore) ∧
    (∀ c' ∈ scoredCandidates full4 chunk4 anchor4 (strOf ""),
      candBefore c' (Cand.mk 1010 2 2) = false) ∧
    selectAnchorCandidate full4 chunk4 anchor4 (strOf "")
      = Option.some ⟨1010, 2, 2⟩ :=
  anchor_context_disambiguation full4 chunk4 anchor4 (strOf "")
    (Cand.mk 1010 2 2) (by decide)

end SourceMapR
